import Mathlib

set_option maxRecDepth 4000

/-!
Formal model of the multithreaded HTTP/HTTPS forward proxy
(`proxy.py`, `utils.py`, `handlers.py`, `main.py`).

Each Python function relevant to the verified properties is translated
into a Lean definition over explicit state:

* `RateLimit.check_rate_limit` models `proxy.check_rate_limit` acting on
  one IP's timestamp ledger; `RateLimit.admitReq` models it acting on the
  whole `request_counter` dictionary (modelled as a total function from
  IP strings to ledgers, with absent keys mapped to the empty ledger,
  matching the lazy initialisation in the Python code).  Timestamps are
  rationals (the Python code uses float seconds from `time.time()`).
* `Stats.update_domain_stats` models `utils.update_domain_stats`.
* `Headers.modify_headers` models `utils.modify_headers` over `List Char`,
  with Python's `str.split`, `str.join`, `str.lower`, `str.startswith`,
  `list.index`/`list.insert` and the regular expression
  `^https?://[^/]+(/.*)$` translated into executable Lean functions.
* `Parse.parse_server_info` models `proxy.parse_server_info` over byte
  lists, including the `utf-8`/`ignore` decode, `str.splitlines`,
  `str.strip`, `int(...)` and the regular expression
  `^(https?://)?([^/:]+)(?::(\d+))?(/.*)?$`.
* `Utf8` models CPython's UTF-8 encoder and its decoder with the
  `backslashreplace` error handler, used by `proxy.proxy` to build
  `client_data` and by `handlers.handle_http` to compute `bytes_received`.
* `Trace` models the observable behaviour (socket sends, closes, event
  emissions, stats updates) of `proxy.send_error`, `proxy.proxy`,
  `handlers.handle_http` and `handlers.handle_https` as action traces,
  with the outcomes of the I/O oracles (dial success, received bytes,
  tunnel byte counts) passed as explicit parameters.
-/

namespace RateLimit

/-- Sliding window length in seconds (`window = 10` in `check_rate_limit`). -/
def WINDOW : ℚ := 10

/-- Admission limit per window (`limit = 100` in `check_rate_limit`). -/
def LIMIT : Nat := 100

/-- The pruning predicate of `check_rate_limit`: keep timestamp `t`
when `now - t < window`. -/
def inWin (now t : ℚ) : Bool := decide (now - t < WINDOW)

/-- One call of `proxy.check_rate_limit` on a single IP's ledger:
prune timestamps outside the window, deny if the pruned ledger already
has `LIMIT` entries (the pruned ledger is written back), otherwise
append `now` and admitReq.  Returns `(admitted, new ledger)`. -/
def check_rate_limit (ledger : List ℚ) (now : ℚ) : Bool × List ℚ :=
  let pruned := ledger.filter (inWin now)
  if LIMIT ≤ pruned.length then (false, pruned) else (true, pruned ++ [now])

/-- The whole `request_counter` dictionary: a total function from IP
strings to ledgers; a key that was never touched maps to `[]`, matching
the `if client_ip not in request_counter: request_counter[client_ip] = []`
initialisation. -/
def admitReq (counter : String → List ℚ) (ip : String) (now : ℚ) :
    Bool × (String → List ℚ) :=
  let r := check_rate_limit (counter ip) now
  (r.1, fun j => if j = ip then r.2 else counter j)

/-- Final ledger after a sequence of `check_rate_limit` calls on one IP. -/
def runLedger : List ℚ → List ℚ → List ℚ
  | ledger, [] => ledger
  | ledger, now :: rest => runLedger (check_rate_limit ledger now).2 rest

/-- Timestamps of the calls in the sequence that were admitted. -/
def admittedTimes : List ℚ → List ℚ → List ℚ
  | _, [] => []
  | ledger, now :: rest =>
    let r := check_rate_limit ledger now
    (if r.1 then [now] else []) ++ admittedTimes r.2 rest

/-- Final `request_counter` after a sequence of `admitReq` calls, each call
given as an (ip, timestamp) pair. -/
def runCounter : (String → List ℚ) → List (String × ℚ) → (String → List ℚ)
  | counter, [] => counter
  | counter, c :: rest => runCounter (admitReq counter c.1 c.2).2 rest

/-- Timestamps of the admitted calls of a given IP in a mixed-IP call
sequence. -/
def admittedOf (ip : String) : (String → List ℚ) → List (String × ℚ) → List ℚ
  | _, [] => []
  | counter, c :: rest =>
    let r := admitReq counter c.1 c.2
    (if c.1 = ip ∧ r.1 then [c.2] else []) ++ admittedOf ip r.2 rest

/-- Number of timestamps of `A` lying in the open interval `(a, a + WINDOW)`. -/
def countIn (a : ℚ) (A : List ℚ) : Nat :=
  (A.filter (fun t => decide (a < t ∧ t < a + WINDOW))).length

theorem inWin_true_iff {c t : ℚ} : inWin c t = true ↔ c - t < WINDOW := by
  simp [inWin]

theorem inWin_self (c : ℚ) : inWin c c = true := by
  simp only [inWin, decide_eq_true_eq, sub_self, WINDOW]
  norm_num

theorem inWin_mono {x c a : ℚ} (hxc : x ≤ c) (h : inWin c a = true) :
    inWin x a = true := by
  simp only [inWin, decide_eq_true_eq] at h ⊢
  linarith

theorem check_denied {L : List ℚ} {now : ℚ}
    (h : LIMIT ≤ (L.filter (inWin now)).length) :
    check_rate_limit L now = (false, L.filter (inWin now)) := by
  simp only [check_rate_limit]
  rw [if_pos h]

theorem check_admitted {L : List ℚ} {now : ℚ}
    (h : (L.filter (inWin now)).length < LIMIT) :
    check_rate_limit L now = (true, L.filter (inWin now) ++ [now]) := by
  simp only [check_rate_limit]
  rw [if_neg (Nat.not_le.mpr h)]

theorem check_fst_false {L : List ℚ} {now : ℚ}
    (h : (check_rate_limit L now).1 = false) :
    LIMIT ≤ (L.filter (inWin now)).length ∧
      (check_rate_limit L now).2 = L.filter (inWin now) := by
  by_cases hc : LIMIT ≤ (L.filter (inWin now)).length
  · exact ⟨hc, by rw [check_denied hc]⟩
  · rw [check_admitted (Nat.not_le.mp hc)] at h
    exact absurd h (by simp)

theorem filter_inWin_inWin (L : List ℚ) {x c : ℚ} (hxc : x ≤ c) :
    (L.filter (inWin x)).filter (inWin c) = L.filter (inWin c) := by
  induction L with
  | nil => rfl
  | cons a L ih =>
    by_cases h1 : inWin x a = true
    · by_cases h2 : inWin c a = true
      · simp [List.filter_cons, h1, h2, ih]
      · simp [List.filter_cons, h1, h2, ih]
    · have h2 : ¬ inWin c a = true := fun h => h1 (inWin_mono hxc h)
      simp [List.filter_cons, h1, h2, ih]

theorem length_filter_le_of_imp {α : Type} (p q : α → Bool) (L : List α)
    (h : ∀ t ∈ L, p t = true → q t = true) :
    (L.filter p).length ≤ (L.filter q).length := by
  induction L with
  | nil => simp
  | cons a L ih =>
    have ih' := ih (fun t ht => h t (List.mem_cons_of_mem a ht))
    by_cases hp : p a = true
    · rw [List.filter_cons_of_pos hp,
        List.filter_cons_of_pos (h a (List.mem_cons_self a L) hp)]
      simpa using ih'
    · rw [List.filter_cons_of_neg (by simpa using hp)]
      by_cases hq : q a = true
      · rw [List.filter_cons_of_pos hq]
        exact ih'.trans (Nat.le_succ _)
      · rw [List.filter_cons_of_neg (by simpa using hq)]
        exact ih'

theorem runLedger_append (L : List ℚ) (xs ys : List ℚ) :
    runLedger L (xs ++ ys) = runLedger (runLedger L xs) ys := by
  induction xs generalizing L with
  | nil => rfl
  | cons x xs ih => simp [runLedger, ih]

theorem admittedTimes_append (L : List ℚ) (xs ys : List ℚ) :
    admittedTimes L (xs ++ ys) =
      admittedTimes L xs ++ admittedTimes (runLedger L xs) ys := by
  induction xs generalizing L with
  | nil => rfl
  | cons x xs ih => simp [admittedTimes, runLedger, ih]

theorem admittedTimes_subset (L : List ℚ) (xs : List ℚ) :
    ∀ t ∈ admittedTimes L xs, t ∈ xs := by
  induction xs generalizing L with
  | nil => intro t ht; simp [admittedTimes] at ht
  | cons x xs ih =>
    intro t ht
    simp only [admittedTimes] at ht
    rcases List.mem_append.mp ht with h | h
    · by_cases hb : (check_rate_limit L x).1 <;> simp [hb] at h
      exact h ▸ List.mem_cons_self x xs
    · exact List.mem_cons_of_mem x (ih _ t h)

theorem sorted_concat_le {ys : List ℚ} {d : ℚ}
    (hs : List.Sorted (· ≤ ·) (ys ++ [d])) :
    ∀ t ∈ ys ++ [d], t ≤ d := by
  intro t ht
  rcases List.mem_append.mp ht with h | h
  · exact (List.pairwise_append.mp hs).2.2 t h d (List.mem_singleton_self d)
  · rw [List.mem_singleton.mp h]

theorem check_mem_inWindow (L : List ℚ) (now : ℚ) :
    ∀ t ∈ (check_rate_limit L now).2, now - t < WINDOW := by
  intro t ht
  by_cases hc : LIMIT ≤ (L.filter (inWin now)).length
  · simp only [check_denied hc] at ht
    exact inWin_true_iff.mp (List.of_mem_filter ht)
  · simp only [check_admitted (Nat.not_le.mp hc)] at ht
    rcases List.mem_append.mp ht with h | h
    · exact inWin_true_iff.mp (List.of_mem_filter h)
    · rw [List.mem_singleton.mp h]
      exact inWin_true_iff.mp (inWin_self now)

theorem check_length_le {L : List ℚ} (now : ℚ) (h : L.length ≤ LIMIT) :
    ((check_rate_limit L now).2).length ≤ LIMIT := by
  by_cases hc : LIMIT ≤ (L.filter (inWin now)).length
  · rw [check_denied hc]
    exact (List.length_filter_le _ L).trans h
  · rw [check_admitted (Nat.not_le.mp hc)]
    simpa using Nat.not_le.mp hc

theorem runLedger_length (xs : List ℚ) (L : List ℚ) (h : L.length ≤ LIMIT) :
    (runLedger L xs).length ≤ LIMIT := by
  induction xs generalizing L with
  | nil => exact h
  | cons x xs ih => exact ih _ (check_length_le x h)

/-- The ledger after a nonempty nondecreasing call sequence is exactly the
list of all admitted timestamps still inside the window of the last call. -/
theorem runLedger_concat_eq (xs : List ℚ) (c : ℚ) (L : List ℚ)
    (hs : List.Sorted (· ≤ ·) (xs ++ [c])) :
    runLedger L (xs ++ [c]) =
      (L ++ admittedTimes L (xs ++ [c])).filter (inWin c) := by
  induction xs generalizing L with
  | nil =>
    by_cases hc : LIMIT ≤ (L.filter (inWin c)).length
    · simp [runLedger, admittedTimes, check_denied hc]
    · simp [runLedger, admittedTimes, check_admitted (Nat.not_le.mp hc),
        List.filter_append, List.filter_cons, inWin_self c]
  | cons x xs ih =>
    have hxc : x ≤ c := by
      rcases List.sorted_cons.mp hs with ⟨hall, _⟩
      exact hall c (by simp)
    have hs' : List.Sorted (· ≤ ·) (xs ++ [c]) :=
      (List.sorted_cons.mp hs).2
    have key : ∀ L₁ : List ℚ,
        runLedger L (x :: (xs ++ [c])) = runLedger (check_rate_limit L x).2 (xs ++ [c]) :=
      fun _ => rfl
    rw [show x :: xs ++ [c] = x :: (xs ++ [c]) from rfl, key []]
    rw [ih _ hs']
    have hsplit : admittedTimes L (x :: (xs ++ [c])) =
        (if (check_rate_limit L x).1 then [x] else []) ++
          admittedTimes (check_rate_limit L x).2 (xs ++ [c]) := rfl
    rw [hsplit]
    by_cases hb : LIMIT ≤ (L.filter (inWin x)).length
    · have h1 := check_denied hb
      rw [h1]
      simp only [h1, List.filter_append]
      simp [filter_inWin_inWin L hxc]
    · have h1 := check_admitted (Nat.not_le.mp hb)
      rw [h1]
      simp only [h1, List.filter_append]
      simp [filter_inWin_inWin L hxc]

/-- Sliding-window bound for a single ledger: in any nondecreasing call
sequence starting from the empty ledger, at most `LIMIT` calls whose
timestamps lie in a given open interval of length `WINDOW` are admitted. -/
theorem countIn_admitted_le (calls : List ℚ)
    (hs : List.Sorted (· ≤ ·) calls) (a : ℚ) :
    countIn a (admittedTimes [] calls) ≤ LIMIT := by
  induction calls using List.reverseRecOn with
  | nil => simp [admittedTimes, countIn, LIMIT]
  | append_singleton xs c ih =>
    have hs' : List.Sorted (· ≤ ·) xs :=
      hs.sublist (List.sublist_append_left xs [c])
    rw [admittedTimes_append]
    have hsum : countIn a (admittedTimes [] xs ++ admittedTimes (runLedger [] xs) [c])
        = countIn a (admittedTimes [] xs)
          + countIn a (admittedTimes (runLedger [] xs) [c]) := by
      simp [countIn, List.filter_append]
    rw [hsum]
    by_cases hadm : (check_rate_limit (runLedger [] xs) c).1 = true
    · by_cases hint : a < c ∧ c < a + WINDOW
      · have htail : countIn a (admittedTimes (runLedger [] xs) [c]) ≤ 1 := by
          have h1 : (admittedTimes (runLedger [] xs) [c]).length ≤ 1 := by
            simp only [admittedTimes]
            split <;> simp
          exact (List.length_filter_le _ _).trans h1
        have hOK : ((runLedger [] xs).filter (inWin c)).length < LIMIT := by
          by_contra hnot
          rw [check_denied (Nat.not_lt.mp hnot)] at hadm
          exact absurd hadm (by simp)
        have hA : countIn a (admittedTimes [] xs) < LIMIT := by
          rcases xs.eq_nil_or_concat with rfl | ⟨ys, d, rfl⟩
          · simp [admittedTimes, countIn, LIMIT]
          · simp only [List.concat_eq_append] at hs hs' hOK ⊢
            have hL : runLedger [] (ys ++ [d]) =
                (admittedTimes [] (ys ++ [d])).filter (inWin d) := by
              simpa using runLedger_concat_eq ys d [] hs'
            have hdc : d ≤ c :=
              (List.pairwise_append.mp hs).2.2 d (by simp) c (by simp)
            have hmem : ∀ t ∈ admittedTimes [] (ys ++ [d]),
                decide (a < t ∧ t < a + WINDOW) = true →
                (inWin c t && inWin d t) = true := by
              intro t ht hdec
              have htle : t ≤ d :=
                sorted_concat_le hs' t (admittedTimes_subset [] (ys ++ [d]) t ht)
              have hai : a < t ∧ t < a + WINDOW := of_decide_eq_true hdec
              have h1 : inWin d t = true := inWin_true_iff.mpr (by
                rcases hint with ⟨h3, h4⟩
                rcases hai with ⟨h5, h6⟩
                linarith)
              have h2 : inWin c t = true := inWin_true_iff.mpr (by
                rcases hint with ⟨h3, h4⟩
                rcases hai with ⟨h5, h6⟩
                linarith)
              rw [h1, h2]
              rfl
            simp only [countIn]
            calc ((admittedTimes [] (ys ++ [d])).filter
                    (fun t => decide (a < t ∧ t < a + WINDOW))).length
                ≤ ((admittedTimes [] (ys ++ [d])).filter
                    (fun t => inWin c t && inWin d t)).length :=
                  length_filter_le_of_imp _ _ _ hmem
              _ = (((admittedTimes [] (ys ++ [d])).filter (inWin d)).filter
                    (inWin c)).length := by rw [List.filter_filter]
              _ = ((runLedger [] (ys ++ [d])).filter (inWin c)).length := by
                  rw [hL]
              _ < LIMIT := hOK
        omega
      · have hd : decide (a < c ∧ c < a + WINDOW) = false := decide_eq_false hint
        have htail : countIn a (admittedTimes (runLedger [] xs) [c]) = 0 := by
          have he : admittedTimes (runLedger [] xs) [c] = [c] := by
            simp [admittedTimes, hadm]
          rw [he]
          simp only [countIn, List.filter_cons, hd]
          simp
        rw [htail]
        simpa using ih hs'
    · have hf : (check_rate_limit (runLedger [] xs) c).1 = false := by
        cases hx : (check_rate_limit (runLedger [] xs) c).1
        · rfl
        · exact absurd hx hadm
      have htail : countIn a (admittedTimes (runLedger [] xs) [c]) = 0 := by
        simp [admittedTimes, countIn, hf]
      rw [htail]
      simpa using ih hs'

/-- Projection of multi-IP `admitReq` runs onto one IP: the final ledger of
`ip` is the single-ledger run over the calls of `ip` alone. -/
theorem runCounter_proj (calls : List (String × ℚ)) (c₀ : String → List ℚ)
    (ip : String) :
    runCounter c₀ calls ip =
      runLedger (c₀ ip)
        ((calls.filter (fun c => decide (c.1 = ip))).map Prod.snd) := by
  induction calls generalizing c₀ with
  | nil => rfl
  | cons c rest ih =>
    rcases c with ⟨j, t⟩
    simp only [runCounter]
    rw [ih]
    by_cases h : j = ip
    · subst h
      have hstep : (admitReq c₀ j t).2 j = (check_rate_limit (c₀ j) t).2 := by
        show (if j = j then (check_rate_limit (c₀ j) t).2 else c₀ j) = _
        rw [if_pos rfl]
      rw [hstep]
      have hfil : (((j, t) :: rest).filter (fun c => decide (c.1 = j))) =
          (j, t) :: rest.filter (fun c => decide (c.1 = j)) := by
        simp [List.filter_cons]
      rw [hfil]
      rfl
    · have hstep : (admitReq c₀ j t).2 ip = c₀ ip := by
        show (if ip = j then (check_rate_limit (c₀ j) t).2 else c₀ ip) = c₀ ip
        rw [if_neg (fun hh => h hh.symm)]
      rw [hstep]
      have hfil : (((j, t) :: rest).filter (fun c => decide (c.1 = ip))) =
          rest.filter (fun c => decide (c.1 = ip)) := by
        simp [List.filter_cons, h]
      rw [hfil]

/-- Projection of the admitted timestamps of one IP out of a mixed-IP
call sequence. -/
theorem admittedOf_proj (calls : List (String × ℚ)) (c₀ : String → List ℚ)
    (ip : String) :
    admittedOf ip c₀ calls =
      admittedTimes (c₀ ip)
        ((calls.filter (fun c => decide (c.1 = ip))).map Prod.snd) := by
  induction calls generalizing c₀ with
  | nil => rfl
  | cons c rest ih =>
    rcases c with ⟨j, t⟩
    simp only [admittedOf]
    rw [ih]
    by_cases h : j = ip
    · subst h
      have hstep : (admitReq c₀ j t).2 j = (check_rate_limit (c₀ j) t).2 := by
        show (if j = j then (check_rate_limit (c₀ j) t).2 else c₀ j) = _
        rw [if_pos rfl]
      have hfst : (admitReq c₀ j t).1 = (check_rate_limit (c₀ j) t).1 := rfl
      have hfil : (((j, t) :: rest).filter (fun c => decide (c.1 = j))) =
          (j, t) :: rest.filter (fun c => decide (c.1 = j)) := by
        simp [List.filter_cons]
      rw [hstep, hfil]
      simp only [List.map_cons, admittedTimes, hfst]
      simp
    · have hstep : (admitReq c₀ j t).2 ip = c₀ ip := by
        show (if ip = j then (check_rate_limit (c₀ j) t).2 else c₀ ip) = c₀ ip
        rw [if_neg (fun hh => h hh.symm)]
      have hfil : (((j, t) :: rest).filter (fun c => decide (c.1 = ip))) =
          rest.filter (fun c => decide (c.1 = ip)) := by
        simp [List.filter_cons, h]
      rw [hstep, hfil]
      simp [h]

end RateLimit

/-- C1: Sliding-window rate-limit bound.  For every source IP and every
sequence of `admitReq` calls with nondecreasing timestamps, starting from
the initial empty `request_counter`, the number of admitted calls of
that IP whose timestamps fall in any open interval of length
`WINDOW = 10` is at most `LIMIT = 100`; moreover, after any
`admitReq (ip, now)` call the ledger for `ip` contains only timestamps `t`
with `now - t < WINDOW` and has length at most `LIMIT`. -/
theorem RateLimit.C1_rate_limit_bound (calls : List (String × ℚ))
    (hs : List.Sorted (· ≤ ·) (calls.map Prod.snd)) :
    (∀ ip a, countIn a (admittedOf ip (fun _ => []) calls) ≤ LIMIT) ∧
    (∀ pre ip now rest, calls = pre ++ (ip, now) :: rest →
      (∀ t ∈ runCounter (fun _ => []) (pre ++ [(ip, now)]) ip,
          now - t < WINDOW) ∧
      (runCounter (fun _ => []) (pre ++ [(ip, now)]) ip).length ≤ LIMIT) := by
  constructor
  · intro ip a
    rw [admittedOf_proj]
    apply countIn_admitted_le
    exact hs.sublist (List.Sublist.map Prod.snd (List.filter_sublist calls))
  · intro pre ip now rest hcalls
    rw [runCounter_proj]
    have hts : (((pre ++ [(ip, now)]).filter
          (fun c => decide (c.1 = ip))).map Prod.snd) =
        ((pre.filter (fun c => decide (c.1 = ip))).map Prod.snd) ++ [now] := by
      simp [List.filter_append, List.filter_cons]
    rw [hts, runLedger_append]
    have hone : runLedger
        (runLedger ((fun _ => ([] : List ℚ)) ip)
          ((pre.filter (fun c => decide (c.1 = ip))).map Prod.snd)) [now] =
        (check_rate_limit
          (runLedger ((fun _ => ([] : List ℚ)) ip)
            ((pre.filter (fun c => decide (c.1 = ip))).map Prod.snd)) now).2 := rfl
    rw [hone]
    exact ⟨check_mem_inWindow _ now,
      check_length_le now (runLedger_length _ _ (by simp [LIMIT]))⟩

/-- Witness for C1 at the concrete call sequence
`[("a", 0), ("a", 1), ("b", 2)]` and the interval starting at `0`. -/
theorem RateLimit.C1_rate_limit_bound_witness :
    RateLimit.countIn 0
      (RateLimit.admittedOf "a" (fun _ => []) [("a", 0), ("a", 1), ("b", 2)])
      ≤ RateLimit.LIMIT :=
  (RateLimit.C1_rate_limit_bound [("a", 0), ("a", 1), ("b", 2)]
    (by decide)).1 "a" 0

/-- C10: a denied rate-limit check still prunes but never records.  If
`admitReq ip now` returns denied, the denied IP's ledger afterwards is
exactly its previous in-window timestamps (nothing appended), every
other IP's ledger is unchanged, and from the post-denial state a later
call of the same IP is admitted as soon as its in-window count is below
`LIMIT`. -/
theorem RateLimit.C10_denied_prunes_never_records
    (counter : String → List ℚ) (ip : String) (now : ℚ)
    (h : (admitReq counter ip now).1 = false) :
    (admitReq counter ip now).2 ip = (counter ip).filter (inWin now) ∧
    (∀ j, j ≠ ip → (admitReq counter ip now).2 j = counter j) ∧
    (∀ now2 : ℚ,
      (((admitReq counter ip now).2 ip).filter (inWin now2)).length < LIMIT →
      (admitReq ((admitReq counter ip now).2) ip now2).1 = true) := by
  have hc := check_fst_false
    (show (check_rate_limit (counter ip) now).1 = false from h)
  refine ⟨?_, ?_, ?_⟩
  · show (if ip = ip then (check_rate_limit (counter ip) now).2 else counter ip)
        = (counter ip).filter (inWin now)
    rw [if_pos rfl, hc.2]
  · intro j hj
    show (if j = ip then (check_rate_limit (counter ip) now).2 else counter j)
        = counter j
    rw [if_neg hj]
  · intro now2 hlt
    show (check_rate_limit ((admitReq counter ip now).2 ip) now2).1 = true
    rw [check_admitted hlt]

/-- The concrete `request_counter` used by the C10 witness: IP "a" holds
`LIMIT` in-window timestamps, so its next call is denied. -/
def RateLimit.wCounter : String → List ℚ :=
  fun j => if j = "a" then List.replicate LIMIT 0 else []

theorem RateLimit.wCounter_denied : (admitReq wCounter "a" 1).1 = false := by
  show (check_rate_limit (wCounter "a") 1).1 = false
  have h1 : wCounter "a" = List.replicate LIMIT 0 := by simp [wCounter]
  have h2 : (List.replicate LIMIT (0 : ℚ)).filter (inWin 1) =
      List.replicate LIMIT 0 := by
    apply List.filter_eq_self.mpr
    intro t ht
    have ht0 : t = 0 := List.eq_of_mem_replicate ht
    subst ht0
    exact inWin_true_iff.mpr (by norm_num [WINDOW])
  rw [h1, check_denied (by rw [h2]; simp)]

/-- Witness for C10: the denied call with the full ledger of IP "a"
leaves the ledger of IP "b" unchanged. -/
theorem RateLimit.C10_denied_prunes_never_records_witness :
    (admitReq wCounter "a" 1).2 "b" = wCounter "b" :=
  (RateLimit.C10_denied_prunes_never_records wCounter "a" 1
    wCounter_denied).2.1 "b" (by decide)

namespace Stats

/-- One per-host entry of `utils.domain_stats`, as initialised lazily by
`update_domain_stats`.  Byte and request counters are Python ints used
as counts (naturals); durations are float seconds (rationals). -/
@[ext]
structure Entry where
  requests : Nat
  bytes_sent : Nat
  bytes_received : Nat
  total_duration : ℚ
  total_ttfb : ℚ
deriving DecidableEq, Repr

/-- The zero entry created on first touch of a hostname. -/
def Entry.zero : Entry := ⟨0, 0, 0, 0, 0⟩

/-- The argument tuple of one `update_domain_stats` call
(`ttfb = none` models the Python default `ttfb=None`). -/
structure RecordCall where
  hostname : String
  bytes_sent : Nat
  bytes_received : Nat
  duration : ℚ
  ttfb : Option ℚ
deriving DecidableEq, Repr

/-- `utils.update_domain_stats`: initialise the host's entry lazily and
add the five counters, `ttfb` only if provided.  The `domain_stats`
dictionary is a total function with untouched keys at `Entry.zero`. -/
def update_domain_stats (stats : String → Entry) (hostname : String)
    (bytes_sent bytes_received : Nat) (duration : ℚ) (ttfb : Option ℚ) :
    String → Entry :=
  fun h =>
    if h = hostname then
      { requests := (stats h).requests + 1
        bytes_sent := (stats h).bytes_sent + bytes_sent
        bytes_received := (stats h).bytes_received + bytes_received
        total_duration := (stats h).total_duration + duration
        total_ttfb :=
          match ttfb with
          | some x => (stats h).total_ttfb + x
          | none => (stats h).total_ttfb }
    else stats h

/-- Fold a sequence of `update_domain_stats` calls over the stats map. -/
def runStats : (String → Entry) → List RecordCall → (String → Entry)
  | s, [] => s
  | s, c :: rest =>
    runStats
      (update_domain_stats s c.hostname c.bytes_sent c.bytes_received
        c.duration c.ttfb) rest

/-- The average derived at reduction time in `main.py`:
`total / requests` when `requests > 0`, else `0`. -/
def avgOf (total : ℚ) (requests : Nat) : ℚ :=
  if 0 < requests then total / requests else 0

/-- Evaluation of one `update_domain_stats` call at the updated host. -/
theorem update_eq_of_eq (s : String → Entry) {hostname h : String}
    (bs br : Nat) (d : ℚ) (tt : Option ℚ) (hh : h = hostname) :
    update_domain_stats s hostname bs br d tt h =
      { requests := (s h).requests + 1
        bytes_sent := (s h).bytes_sent + bs
        bytes_received := (s h).bytes_received + br
        total_duration := (s h).total_duration + d
        total_ttfb :=
          match tt with
          | some x => (s h).total_ttfb + x
          | none => (s h).total_ttfb } := by
  subst hh
  simp [update_domain_stats]

/-- Evaluation of one `update_domain_stats` call at any other host. -/
theorem update_eq_of_ne (s : String → Entry) {hostname h : String}
    (bs br : Nat) (d : ℚ) (tt : Option ℚ) (hh : h ≠ hostname) :
    update_domain_stats s hostname bs br d tt h = s h := by
  simp [update_domain_stats, hh]

/-- Characterisation of `runStats` from an arbitrary initial map: every
counter of every host grows by the sums over that host's calls. -/
theorem runStats_char (calls : List RecordCall) (s : String → Entry)
    (h : String) :
    (runStats s calls h).requests = (s h).requests +
        (calls.filter (fun c => decide (c.hostname = h))).length ∧
    (runStats s calls h).bytes_sent = (s h).bytes_sent +
        (((calls.filter (fun c => decide (c.hostname = h))).map
          (fun c => c.bytes_sent)).sum) ∧
    (runStats s calls h).bytes_received = (s h).bytes_received +
        (((calls.filter (fun c => decide (c.hostname = h))).map
          (fun c => c.bytes_received)).sum) ∧
    (runStats s calls h).total_duration = (s h).total_duration +
        (((calls.filter (fun c => decide (c.hostname = h))).map
          (fun c => c.duration)).sum) ∧
    (runStats s calls h).total_ttfb = (s h).total_ttfb +
        (((calls.filter (fun c => decide (c.hostname = h))).filterMap
          (fun c => c.ttfb)).sum) := by
  induction calls generalizing s with
  | nil => simp [runStats]
  | cons c rest ih =>
    obtain ⟨h1, h2, h3, h4, h5⟩ := ih (update_domain_stats s c.hostname
      c.bytes_sent c.bytes_received c.duration c.ttfb)
    by_cases hc : c.hostname = h
    · have hu := update_eq_of_eq s c.bytes_sent c.bytes_received c.duration
        c.ttfb hc.symm
      have hfil : ((c :: rest).filter (fun c => decide (c.hostname = h))) =
          c :: rest.filter (fun c => decide (c.hostname = h)) := by
        simp [List.filter_cons, hc]
      refine ⟨?_, ?_, ?_, ?_, ?_⟩
      · simp only [runStats]
        rw [h1, hu, hfil]
        simp only [List.length_cons]
        omega
      · simp only [runStats]
        rw [h2, hu, hfil]
        simp only [List.map_cons, List.sum_cons]
        omega
      · simp only [runStats]
        rw [h3, hu, hfil]
        simp only [List.map_cons, List.sum_cons]
        omega
      · simp only [runStats]
        rw [h4, hu, hfil]
        simp only [List.map_cons, List.sum_cons]
        ring
      · simp only [runStats]
        rw [h5, hu, hfil]
        rcases ht : c.ttfb with _ | x
        · simp [ht, List.filterMap_cons]
        · simp [ht, List.filterMap_cons]
          ring
    · have hu := update_eq_of_ne s c.bytes_sent c.bytes_received c.duration
        c.ttfb (fun hh => hc hh.symm)
      have hfil : ((c :: rest).filter (fun c => decide (c.hostname = h))) =
          rest.filter (fun c => decide (c.hostname = h)) := by
        simp [List.filter_cons, hc]
      refine ⟨?_, ?_, ?_, ?_, ?_⟩
      · simp only [runStats]
        rw [h1, hu, hfil]
      · simp only [runStats]
        rw [h2, hu, hfil]
      · simp only [runStats]
        rw [h3, hu, hfil]
      · simp only [runStats]
        rw [h4, hu, hfil]
      · simp only [runStats]
        rw [h5, hu, hfil]

end Stats

/-- C9: stats aggregation is additive and monotone.  After any finite
sequence of `update_domain_stats` calls from the empty map, each host's
entry holds the request count and the per-argument sums (ttfb summed
only over calls that provided it); a single call never decreases any
counter (given nonnegative duration/ttfb arguments, as produced by
`time.perf_counter` differences); recording `("a", 100, 50, 0.2, 0.05)`
three times yields requests 3, bytes 300/150 and averages 0.2 / 0.05. -/
theorem Stats.C9_stats_additive_monotone :
    (∀ (calls : List RecordCall) (h : String),
      (runStats (fun _ => Entry.zero) calls h).requests =
          (calls.filter (fun c => decide (c.hostname = h))).length ∧
      (runStats (fun _ => Entry.zero) calls h).bytes_sent =
          ((calls.filter (fun c => decide (c.hostname = h))).map
            (fun c => c.bytes_sent)).sum ∧
      (runStats (fun _ => Entry.zero) calls h).bytes_received =
          ((calls.filter (fun c => decide (c.hostname = h))).map
            (fun c => c.bytes_received)).sum ∧
      (runStats (fun _ => Entry.zero) calls h).total_duration =
          ((calls.filter (fun c => decide (c.hostname = h))).map
            (fun c => c.duration)).sum ∧
      (runStats (fun _ => Entry.zero) calls h).total_ttfb =
          ((calls.filter (fun c => decide (c.hostname = h))).filterMap
            (fun c => c.ttfb)).sum) ∧
    (∀ (s : String → Entry) (host : String) (bs br : Nat) (d : ℚ)
        (tt : Option ℚ) (h2 : String),
      0 ≤ d → (∀ x, tt = some x → 0 ≤ x) →
      (s h2).requests ≤ (update_domain_stats s host bs br d tt h2).requests ∧
      (s h2).bytes_sent ≤
        (update_domain_stats s host bs br d tt h2).bytes_sent ∧
      (s h2).bytes_received ≤
        (update_domain_stats s host bs br d tt h2).bytes_received ∧
      (s h2).total_duration ≤
        (update_domain_stats s host bs br d tt h2).total_duration ∧
      (s h2).total_ttfb ≤
        (update_domain_stats s host bs br d tt h2).total_ttfb) ∧
    (runStats (fun _ => Entry.zero)
        [⟨"a", 100, 50, 0.2, some 0.05⟩, ⟨"a", 100, 50, 0.2, some 0.05⟩,
          ⟨"a", 100, 50, 0.2, some 0.05⟩] "a" =
        ⟨3, 300, 150, 0.6, 0.15⟩ ∧
      avgOf 0.6 3 = 0.2 ∧ avgOf 0.15 3 = 0.05) := by
  have hzero : ∀ h : String, ((fun _ => Entry.zero) h : Entry) = ⟨0, 0, 0, 0, 0⟩ := by
    intro h
    rfl
  refine ⟨?_, ?_, ?_, ?_, ?_⟩
  · intro calls h
    have hch := runStats_char calls (fun _ => Entry.zero) h
    simpa [Entry.zero] using hch
  · intro s host bs br d tt h2 hd htt
    by_cases hc : h2 = host
    · rw [update_eq_of_eq s bs br d tt hc]
      refine ⟨Nat.le_succ _, Nat.le_add_right _ _, Nat.le_add_right _ _,
        le_add_of_nonneg_right hd, ?_⟩
      rcases ht : tt with _ | x
      · exact le_refl _
      · exact le_add_of_nonneg_right (htt x ht)
    · rw [update_eq_of_ne s bs br d tt hc]
      exact ⟨le_refl _, le_refl _, le_refl _, le_refl _, le_refl _⟩
  · have hch := runStats_char
      [⟨"a", 100, 50, 0.2, some 0.05⟩, ⟨"a", 100, 50, 0.2, some 0.05⟩,
        ⟨"a", 100, 50, 0.2, some 0.05⟩] (fun _ => Entry.zero) "a"
    obtain ⟨e1, e2, e3, e4, e5⟩ := hch
    ext
    · rw [e1]
      norm_num [Entry.zero, List.filter_cons]
    · rw [e2]
      norm_num [Entry.zero, List.filter_cons]
    · rw [e3]
      norm_num [Entry.zero, List.filter_cons]
    · rw [e4]
      norm_num [Entry.zero, List.filter_cons]
    · rw [e5]
      norm_num [Entry.zero, List.filter_cons, List.filterMap_cons]
  · norm_num [avgOf]
  · norm_num [avgOf]

/-- Witness for C9: one concrete `update_domain_stats` call does not
decrease the request counter. -/
theorem Stats.C9_witness :
    (Stats.Entry.zero).requests ≤
      (Stats.update_domain_stats (fun _ => Stats.Entry.zero) "a" 100 50 0 none
        "a").requests :=
  ((Stats.C9_stats_additive_monotone).2.1 (fun _ => Stats.Entry.zero) "a"
    100 50 0 none "a" (le_refl 0) (fun _ hx => Option.noConfusion hx)).1

namespace Headers

/-- Python `s.startswith(pat)`: `pat` is a prefix of `s` (char lists). -/
def startsWith : List Char → List Char → Bool
  | [], _ => true
  | _ :: _, [] => false
  | p :: ps, c :: cs => (p == c) && startsWith ps cs

/-- Python `request_str.split("\r\n")` specialised to the two-character
separator: split on leftmost non-overlapping occurrences of CRLF; a
missing separator yields one part, and `""` yields `[""]`. -/
def crSplit : List Char → List (List Char)
  | [] => [[]]
  | [c] => [[c]]
  | a :: b :: rest =>
    if a = '\r' ∧ b = '\n' then [] :: crSplit rest
    else
      match crSplit (b :: rest) with
      | [] => [[a]]
      | p :: ps => (a :: p) :: ps

/-- Python `"\r\n".join(parts)`. -/
def crJoin : List (List Char) → List Char
  | [] => []
  | [x] => x
  | x :: xs => x ++ '\r' :: '\n' :: crJoin xs

/-- Whether the char list contains an adjacent `"\r\n"` pair (an
occurrence of the split separator). -/
def hasCRLF : List Char → Bool
  | [] => false
  | [_] => false
  | a :: b :: rest => ((a == '\r') && (b == '\n')) || hasCRLF (b :: rest)

/-- Python `s.split(" ", maxsplit)`: split on single spaces, at most
`maxsplit` times, the remainder (spaces included) forming the last part. -/
def splitSp : Nat → List Char → List (List Char)
  | 0, s => [s]
  | _ + 1, [] => [[]]
  | n + 1, c :: rest =>
    if c = ' ' then [] :: splitSp n rest
    else
      match splitSp (n + 1) rest with
      | [] => [[c]]
      | p :: ps => (c :: p) :: ps

/-- Python `" ".join(parts)`. -/
def spaceJoin : List (List Char) → List Char
  | [] => []
  | [x] => x
  | x :: xs => x ++ ' ' :: spaceJoin xs

/-- The trailing `.*$` of the pattern `^https?://[^/]+(/.*)$` applied to
the remainder `rs`: `.` does not match a newline and `$` matches at the
end of the string or just before one final trailing newline; returns the
text matched by `.*`. -/
def dotStarEnd (rs : List Char) : Option (List Char) :=
  let a := rs.takeWhile (fun c => c ≠ '\n')
  let b := rs.dropWhile (fun c => c ≠ '\n')
  if b = [] then some rs
  else if b = ['\n'] then some a
  else none

/-- The regular expression `^https?://[^/]+(/.*)$` of
`utils.modify_headers`, returning group 1 (`/` plus path) on a match.
The scheme alternatives are tried exactly as the (greedy) engine does;
`[^/]+` is the greedy run of non-`/` characters, and a shorter host
cannot rescue a failed match because the mandatory `(/.*)` group can
only start at a `/`. -/
def urlCore (rest1 : List Char) : Option (List Char) :=
  let host := rest1.takeWhile (fun c => c ≠ '/')
  let rem := rest1.dropWhile (fun c => c ≠ '/')
  if host = [] then none
  else
    match rem with
    | '/' :: rs =>
      match dotStarEnd rs with
      | some a => some ('/' :: a)
      | none => none
    | _ => none

def absUrlPath (t : List Char) : Option (List Char) :=
  if startsWith ("https://".data) t then urlCore (t.drop 8)
  else if startsWith ("http://".data) t then urlCore (t.drop 7)
  else none

/-- The replacement header line `"Connection: close"`. -/
def connClose : List Char := "Connection: close".data

/-- The lowercase key `"connection:"`. -/
def connKey : List Char := "connection:".data

/-- Python `line.lower().startswith("connection:")`, with `str.lower`
modelled character-wise by `Char.toLower` (ASCII letters; the key being
matched is pure ASCII). -/
def isConnLine (l : List Char) : Bool := startsWith connKey (l.map Char.toLower)

/-- The request-line rewrite of `utils.modify_headers`: split the first
line on at most two spaces; if there are at least two parts and the
target matches the absolute-URL pattern, replace the target by the path
group and rejoin with single spaces; otherwise leave the line as is. -/
def rewriteRequestLine (l : List Char) : List Char :=
  match splitSp 2 l with
  | m :: t :: rest =>
    match absUrlPath t with
    | some path => spaceJoin (m :: path :: rest)
    | none => l
  | _ => l

/-- Python `new_lines.insert(new_lines.index(''), "Connection: close")`
with the `ValueError` fallback `blank_idx = len(new_lines)`: insert the
header before the first empty line, or append if there is none. -/
def insertConn : List (List Char) → List (List Char)
  | [] => [connClose]
  | l :: ls => if l = [] then connClose :: l :: ls else l :: insertConn ls

/-- The line-level transformation of `utils.modify_headers`: rewrite the
request line; replace every later line whose lowercased form starts with
`connection:` by `Connection: close`; if no such line existed, insert
`Connection: close` before the first blank line (or at the end). -/
def transformLines : List (List Char) → List (List Char)
  | [] => []
  | l0 :: rest =>
    rewriteRequestLine l0 ::
      (if rest.any isConnLine then
        rest.map (fun l => if isConnLine l then connClose else l)
      else
        insertConn (rest.map (fun l => if isConnLine l then connClose else l)))

/-- `utils.modify_headers` (its unused `hostname` parameter omitted):
split on CRLF, transform the lines, rejoin with CRLF.  The `if not
lines` early return is kept although `crSplit` never returns `[]`. -/
def modify_headers (request_str : List Char) : List Char :=
  match crSplit request_str with
  | [] => request_str
  | l0 :: rest => crJoin (transformLines (l0 :: rest))

example : modify_headers
    ("GET http://example.com/a?b=1 HTTP/1.1\r\nHost: example.com\r\nConnection: keep-alive\r\n\r\n".data)
    = ("GET /a?b=1 HTTP/1.1\r\nHost: example.com\r\nConnection: close\r\n\r\n".data) := by
  decide

example : modify_headers ("GARBAGE".data) =
    ("GARBAGE\r\nConnection: close".data) := by decide

example : modify_headers ("GET / HTTP/1.1\r\n\r\nconnection: x".data) =
    ("GET / HTTP/1.1\r\n\r\nConnection: close".data) := by decide

theorem crSplit_ne_nil (s : List Char) : crSplit s ≠ [] := by
  match s with
  | [] => simp [crSplit]
  | [c] => simp [crSplit]
  | a :: b :: rest =>
    simp only [crSplit]
    split
    · simp
    · split <;> simp

theorem crJoin_cons_cons (a : Char) (p : List Char) (ps : List (List Char)) :
    crJoin ((a :: p) :: ps) = a :: crJoin (p :: ps) := by
  cases ps <;> rfl

theorem crJoin_crSplit (s : List Char) : crJoin (crSplit s) = s := by
  induction s using crSplit.induct with
  | case1 => rfl
  | case2 c => rfl
  | case3 a b rest hab ih =>
    rcases hps : crSplit rest with _ | ⟨p, ps⟩
    · exact absurd hps (crSplit_ne_nil rest)
    · obtain ⟨ha, hb⟩ := hab
      subst ha
      subst hb
      rw [crSplit, if_pos ⟨rfl, rfl⟩, hps]
      show '\r' :: '\n' :: crJoin (p :: ps) = _
      rw [hps] at ih
      rw [ih]
  | case4 a b rest hab hnil ih => exact absurd hnil (crSplit_ne_nil _)
  | case5 a b rest hab p ps hps ih =>
    rw [crSplit, if_neg hab, hps]
    show crJoin ((a :: p) :: ps) = a :: b :: rest
    rw [crJoin_cons_cons]
    rw [hps] at ih
    rw [ih]

theorem crSplit_head {x : Char} {xs : List Char} {p : List Char}
    {ps : List (List Char)} (h : crSplit (x :: xs) = p :: ps) :
    p = [] ∨ ∃ p2, p = x :: p2 := by
  rcases xs with _ | ⟨y, xs2⟩
  · rw [crSplit] at h
    injection h with h1 h2
    exact Or.inr ⟨[], h1.symm⟩
  · rw [crSplit] at h
    by_cases hc : x = '\r' ∧ y = '\n'
    · rw [if_pos hc] at h
      injection h with h1 h2
      exact Or.inl h1.symm
    · rw [if_neg hc] at h
      rcases hq : crSplit (y :: xs2) with _ | ⟨q, qs⟩
      · exact absurd hq (crSplit_ne_nil _)
      · rw [hq] at h
        injection h with h1 h2
        exact Or.inr ⟨q, h1.symm⟩

theorem hasCRLF_cons_false {c : Char} {b : List Char}
    (h : hasCRLF (c :: b) = false) : hasCRLF b = false := by
  rcases b with _ | ⟨y, b2⟩
  · rfl
  · rw [hasCRLF] at h
    exact (Bool.or_eq_false_iff.mp h).2

theorem hasCRLF_pair_false {a b : Char} {rest : List Char}
    (h : hasCRLF (a :: b :: rest) = false) : ¬(a = '\r' ∧ b = '\n') := by
  rw [hasCRLF] at h
  have h1 := (Bool.or_eq_false_iff.mp h).1
  intro hcon
  rcases hcon with ⟨rfl, rfl⟩
  simp at h1

theorem pair_beq_false {a b : Char} (hab : ¬(a = '\r' ∧ b = '\n')) :
    ((a == '\r') && (b == '\n')) = false := by
  cases hA : (a == '\r')
  · simp
  · cases hB : (b == '\n')
    · simp
    · exact absurd ⟨eq_of_beq hA, eq_of_beq hB⟩ hab

theorem crSplit_single {p : List Char} (h : hasCRLF p = false) :
    crSplit p = [p] := by
  induction p using hasCRLF.induct with
  | case1 => rfl
  | case2 c => rfl
  | case3 a b rest ih =>
    have hpair := hasCRLF_pair_false h
    have htail := hasCRLF_cons_false h
    rw [crSplit, if_neg hpair, ih htail]

theorem crSplit_append_crlf {p : List Char} (t : List Char)
    (h : hasCRLF p = false) :
    crSplit (p ++ '\r' :: '\n' :: t) = p :: crSplit t := by
  induction p using hasCRLF.induct with
  | case1 =>
    show crSplit ('\r' :: '\n' :: t) = [] :: crSplit t
    rw [crSplit, if_pos ⟨rfl, rfl⟩]
  | case2 c =>
    have h0 : crSplit ('\r' :: '\n' :: t) = [] :: crSplit t := by
      rw [crSplit, if_pos ⟨rfl, rfl⟩]
    show crSplit (c :: '\r' :: '\n' :: t) = [c] :: crSplit t
    rw [crSplit, if_neg (fun hc => absurd hc.2 (by decide)), h0]
  | case3 a b rest ih =>
    have hpair := hasCRLF_pair_false h
    have htail := hasCRLF_cons_false h
    have hin : crSplit (b :: (rest ++ '\r' :: '\n' :: t)) =
        (b :: rest) :: crSplit t := ih htail
    show crSplit (a :: b :: (rest ++ '\r' :: '\n' :: t)) =
        (a :: b :: rest) :: crSplit t
    rw [crSplit, if_neg hpair, hin]

theorem crSplit_crJoin {parts : List (List Char)} (hne : parts ≠ [])
    (hok : ∀ p ∈ parts, hasCRLF p = false) :
    crSplit (crJoin parts) = parts := by
  induction parts with
  | nil => exact absurd rfl hne
  | cons p qs ih =>
    rcases qs with _ | ⟨q, qs2⟩
    · exact crSplit_single (hok p (by simp))
    · show crSplit (p ++ '\r' :: '\n' :: crJoin (q :: qs2)) = p :: q :: qs2
      rw [crSplit_append_crlf _ (hok p (by simp))]
      rw [ih (by simp) (fun r hr => hok r (List.mem_cons_of_mem p hr))]

theorem hasCRLF_mem_crSplit (s : List Char) :
    ∀ p ∈ crSplit s, hasCRLF p = false := by
  induction s using crSplit.induct with
  | case1 =>
    intro p hp
    simp only [crSplit, List.mem_singleton] at hp
    subst hp
    rfl
  | case2 c =>
    intro p hp
    simp only [crSplit, List.mem_singleton] at hp
    subst hp
    rfl
  | case3 a b rest hab ih =>
    intro p hp
    obtain ⟨rfl, rfl⟩ := hab
    rw [crSplit, if_pos ⟨rfl, rfl⟩] at hp
    rcases List.mem_cons.mp hp with rfl | hmem
    · rfl
    · exact ih p hmem
  | case4 a b rest hab hnil ih => exact absurd hnil (crSplit_ne_nil _)
  | case5 a b rest hab p ps hps ih =>
    intro r hr
    rw [crSplit, if_neg hab, hps] at hr
    have hr2 : r ∈ (a :: p) :: ps := hr
    rcases List.mem_cons.mp hr2 with rfl | hmem
    · have hp0 : hasCRLF p = false := ih p (hps ▸ List.mem_cons_self p ps)
      rcases crSplit_head hps with rfl | ⟨p2, rfl⟩
      · rfl
      · rw [hasCRLF, pair_beq_false hab, hp0]
        rfl
    · exact ih r (hps ▸ List.mem_cons_of_mem p hmem)

theorem hasCRLF_append {a b : List Char} (h : hasCRLF (a ++ b) = false) :
    hasCRLF a = false ∧ hasCRLF b = false := by
  induction a using hasCRLF.induct with
  | case1 => exact ⟨rfl, h⟩
  | case2 c => exact ⟨rfl, hasCRLF_cons_false (by simpa using h)⟩
  | case3 x y rest ih =>
    simp only [List.cons_append] at h
    rw [hasCRLF] at h
    obtain ⟨h1, h2⟩ := Bool.or_eq_false_iff.mp h
    have h3 := ih h2
    refine ⟨?_, h3.2⟩
    rw [hasCRLF, h1, h3.1]
    rfl

theorem hasCRLF_cons_of {c : Char} {b : List Char} (hc1 : c ≠ '\r')
    (hb : hasCRLF b = false) : hasCRLF (c :: b) = false := by
  rcases b with _ | ⟨y, b2⟩
  · rfl
  · rw [hasCRLF]
    simp [beq_eq_false_iff_ne.mpr hc1, hb]

theorem hasCRLF_append_cons {a b : List Char} {c : Char}
    (hc1 : c ≠ '\r') (hc2 : c ≠ '\n')
    (ha : hasCRLF a = false) (hb : hasCRLF b = false) :
    hasCRLF (a ++ c :: b) = false := by
  induction a using hasCRLF.induct with
  | case1 => exact hasCRLF_cons_of hc1 hb
  | case2 x =>
    show hasCRLF (x :: c :: b) = false
    rw [hasCRLF]
    simp [beq_eq_false_iff_ne.mpr hc2, hasCRLF_cons_of hc1 hb]
  | case3 x y rest ih =>
    rw [hasCRLF] at ha
    obtain ⟨h1, h2⟩ := Bool.or_eq_false_iff.mp ha
    simp only [List.cons_append]
    rw [hasCRLF, h1]
    have := ih h2
    simp only [List.cons_append] at this
    rw [this]
    rfl

theorem spaceJoin_no_crlf {parts : List (List Char)}
    (h : ∀ p ∈ parts, hasCRLF p = false) :
    hasCRLF (spaceJoin parts) = false := by
  induction parts with
  | nil => rfl
  | cons p qs ih =>
    rcases qs with _ | ⟨q, qs2⟩
    · exact h p (by simp)
    · show hasCRLF (p ++ ' ' :: spaceJoin (q :: qs2)) = false
      exact hasCRLF_append_cons (by decide) (by decide) (h p (by simp))
        (ih (fun r hr => h r (List.mem_cons_of_mem p hr)))

theorem spaceJoin_no_crlf_rev {parts : List (List Char)}
    (h : hasCRLF (spaceJoin parts) = false) :
    ∀ p ∈ parts, hasCRLF p = false := by
  induction parts with
  | nil => intro p hp; simp at hp
  | cons p qs ih =>
    rcases qs with _ | ⟨q, qs2⟩
    · intro r hr
      rw [List.mem_singleton.mp hr]
      exact h
    · have h2 := hasCRLF_append (a := p) (b := ' ' :: spaceJoin (q :: qs2)) h
      intro r hr
      rcases List.mem_cons.mp hr with rfl | hmem
      · exact h2.1
      · exact ih (hasCRLF_cons_false h2.2) r hmem

theorem splitSp_ne_nil (n : Nat) (s : List Char) : splitSp n s ≠ [] := by
  match n, s with
  | 0, s => simp [splitSp]
  | n + 1, [] => simp [splitSp]
  | n + 1, c :: rest =>
    rw [splitSp]
    split
    · simp
    · split <;> simp

theorem splitSp_zero (s : List Char) : splitSp 0 s = [s] := by
  rw [splitSp]

theorem spaceJoin_cons_cons (a : Char) (p : List Char)
    (ps : List (List Char)) :
    spaceJoin ((a :: p) :: ps) = a :: spaceJoin (p :: ps) := by
  cases ps <;> rfl

theorem spaceJoin_splitSp (n : Nat) (s : List Char) :
    spaceJoin (splitSp n s) = s := by
  induction s generalizing n with
  | nil => cases n <;> rfl
  | cons c rest ih =>
    cases n with
    | zero => rfl
    | succ n =>
      rw [splitSp]
      by_cases hc : c = ' '
      · rw [if_pos hc]
        subst hc
        rcases hps : splitSp n rest with _ | ⟨p, ps⟩
        · exact absurd hps (splitSp_ne_nil n rest)
        · show spaceJoin ([] :: p :: ps) = ' ' :: rest
          show ' ' :: spaceJoin (p :: ps) = ' ' :: rest
          rw [← hps, ih n]
      · rw [if_neg hc]
        rcases hps : splitSp (n + 1) rest with _ | ⟨p, ps⟩
        · exact absurd hps (splitSp_ne_nil (n + 1) rest)
        · show spaceJoin ((c :: p) :: ps) = c :: rest
          rw [spaceJoin_cons_cons, ← hps, ih (n + 1)]

theorem splitSp_nospace (n : Nat) {s : List Char} (h : ∀ c ∈ s, c ≠ ' ') :
    splitSp n s = [s] := by
  induction s generalizing n with
  | nil => cases n <;> rfl
  | cons c rest ih =>
    cases n with
    | zero => rfl
    | succ n =>
      rw [splitSp, if_neg (h c (by simp)),
        ih (fun d hd => h d (by simp [hd])) (n := n + 1)]

theorem splitSp_append_cons {m : List Char} (hm : ∀ c ∈ m, c ≠ ' ')
    (n : Nat) (x : List Char) :
    splitSp (n + 1) (m ++ ' ' :: x) = m :: splitSp n x := by
  induction m with
  | nil =>
    show splitSp (n + 1) (' ' :: x) = [] :: splitSp n x
    rw [splitSp, if_pos rfl]
  | cons c m ih =>
    show splitSp (n + 1) (c :: (m ++ ' ' :: x)) = (c :: m) :: splitSp n x
    rw [splitSp, if_neg (hm c (by simp)),
      ih (fun d hd => hm d (by simp [hd]))]

theorem splitSp_cases (n : Nat) (s : List Char) :
    ((∀ c ∈ s, c ≠ ' ') ∧ splitSp (n + 1) s = [s]) ∨
    (∃ p x, (∀ c ∈ p, c ≠ ' ') ∧ s = p ++ ' ' :: x ∧
      splitSp (n + 1) s = p :: splitSp n x) := by
  induction s with
  | nil => exact Or.inl ⟨by simp, rfl⟩
  | cons c rest ih =>
    by_cases hc : c = ' '
    · subst hc
      refine Or.inr ⟨[], rest, by simp, rfl, ?_⟩
      rw [splitSp, if_pos rfl]
    · rcases ih with ⟨hall, heq⟩ | ⟨p, x, hp, rfl, heq⟩
      · refine Or.inl ⟨?_, ?_⟩
        · intro d hd
          rcases List.mem_cons.mp hd with rfl | hd2
          · exact hc
          · exact hall d hd2
        · rw [splitSp, if_neg hc, heq]
      · refine Or.inr ⟨c :: p, x, ?_, rfl, ?_⟩
        · intro d hd
          rcases List.mem_cons.mp hd with rfl | hd2
          · exact hc
          · exact hp d hd2
        · rw [splitSp, if_neg hc, heq]

theorem splitSp2_struct {l m t : List Char} {rest : List (List Char)}
    (h : splitSp 2 l = m :: t :: rest) :
    (∀ c ∈ m, c ≠ ' ') ∧ (∀ c ∈ t, c ≠ ' ') ∧
      (rest = [] ∨ ∃ r, rest = [r]) := by
  rcases splitSp_cases 1 l with ⟨hall, heq⟩ | ⟨p, x, hp, rfl, heq⟩
  · rw [heq] at h
    exact absurd h (by simp)
  · rw [heq] at h
    injection h with h1 h2
    subst h1
    rcases splitSp_cases 0 x with ⟨hall2, heq2⟩ | ⟨p2, x2, hp2, rfl, heq2⟩
    · rw [heq2] at h2
      injection h2 with h3 h4
      subst h3
      exact ⟨hp, hall2, by simp [h4.symm]⟩
    · rw [heq2] at h2
      injection h2 with h3 h4
      subst h3
      exact ⟨hp, hp2, Or.inr ⟨x2, by rw [← h4, splitSp_zero]⟩⟩

theorem splitSp2_rejoin {m t : List Char} {rest : List (List Char)}
    (hm : ∀ c ∈ m, c ≠ ' ') (ht : ∀ c ∈ t, c ≠ ' ')
    (hr : rest = [] ∨ ∃ r, rest = [r]) :
    splitSp 2 (spaceJoin (m :: t :: rest)) = m :: t :: rest := by
  rcases hr with rfl | ⟨r, rfl⟩
  · show splitSp 2 (m ++ ' ' :: t) = [m, t]
    rw [splitSp_append_cons hm 1 t, splitSp_nospace 1 ht]
  · show splitSp 2 (m ++ ' ' :: (t ++ ' ' :: r)) = [m, t, r]
    rw [splitSp_append_cons hm 1, splitSp_append_cons ht 0, splitSp_zero]

theorem dotStarEnd_pre {rs a : List Char} (h : dotStarEnd rs = some a) :
    ∃ v, rs = a ++ v := by
  simp only [dotStarEnd] at h
  split at h
  · injection h with h1
    exact ⟨[], by simp [h1]⟩
  · split at h
    · injection h with h1
      refine ⟨rs.dropWhile (fun c => c ≠ '\n'), ?_⟩
      rw [← h1]
      exact (List.takeWhile_append_dropWhile _ _).symm
    · exact absurd h (by simp)

theorem urlCore_infix {r path : List Char} (h : urlCore r = some path) :
    (∃ u v, r = u ++ path ++ v) ∧ ∃ a, path = '/' :: a := by
  simp only [urlCore] at h
  split at h
  · exact absurd h (by simp)
  · split at h
    · next rs heq =>
      split at h
      · next a hds =>
        injection h with hpa
        subst hpa
        obtain ⟨v, hv⟩ := dotStarEnd_pre hds
        refine ⟨⟨r.takeWhile (fun c => c ≠ '/'), v, ?_⟩, ⟨a, rfl⟩⟩
        conv_lhs => rw [← List.takeWhile_append_dropWhile
          (p := fun c => decide ¬(c = '/')) (l := r)]
        rw [heq, hv]
        simp
      · exact absurd h (by simp)
    · exact absurd h (by simp)

theorem absUrlPath_infix {t path : List Char} (h : absUrlPath t = some path) :
    (∃ u v, t = u ++ path ++ v) ∧ ∃ a, path = '/' :: a := by
  simp only [absUrlPath] at h
  split at h
  · obtain ⟨⟨u, v, huv⟩, hsl⟩ := urlCore_infix h
    refine ⟨⟨t.take 8 ++ u, v, ?_⟩, hsl⟩
    conv_lhs => rw [← List.take_append_drop 8 t]
    rw [huv]
    simp
  · split at h
    · obtain ⟨⟨u, v, huv⟩, hsl⟩ := urlCore_infix h
      refine ⟨⟨t.take 7 ++ u, v, ?_⟩, hsl⟩
      conv_lhs => rw [← List.take_append_drop 7 t]
      rw [huv]
      simp
    · exact absurd h (by simp)

theorem startsWith_https_slash (l : List Char) :
    startsWith ("https://".data) ('/' :: l) = false := by
  show (('h' == '/') && startsWith ("ttps://".data) l) = false
  rw [show ('h' == '/') = false from by decide, Bool.false_and]

theorem startsWith_http_slash (l : List Char) :
    startsWith ("http://".data) ('/' :: l) = false := by
  show (('h' == '/') && startsWith ("ttp://".data) l) = false
  rw [show ('h' == '/') = false from by decide, Bool.false_and]

theorem absUrlPath_slash_none (l : List Char) :
    absUrlPath ('/' :: l) = none := by
  simp only [absUrlPath]
  rw [startsWith_https_slash, startsWith_http_slash]
  simp

theorem rewriteRequestLine_eq_of_match {l m t path : List Char}
    {rest : List (List Char)}
    (hsp : splitSp 2 l = m :: t :: rest) (hab : absUrlPath t = some path) :
    rewriteRequestLine l = spaceJoin (m :: path :: rest) := by
  simp only [rewriteRequestLine, hsp, hab]

theorem rewriteRequestLine_eq_of_nomatch {l m t : List Char}
    {rest : List (List Char)}
    (hsp : splitSp 2 l = m :: t :: rest) (hab : absUrlPath t = none) :
    rewriteRequestLine l = l := by
  simp only [rewriteRequestLine, hsp, hab]

theorem rewriteRequestLine_eq_single {l m : List Char}
    (hsp : splitSp 2 l = [m]) : rewriteRequestLine l = l := by
  simp only [rewriteRequestLine, hsp]

theorem rewrite_no_crlf {l : List Char} (h : hasCRLF l = false) :
    hasCRLF (rewriteRequestLine l) = false := by
  rcases hsp : splitSp 2 l with _ | ⟨m, _ | ⟨t, rest⟩⟩
  · exact absurd hsp (splitSp_ne_nil 2 l)
  · rw [rewriteRequestLine_eq_single hsp]
    exact h
  · rcases hab : absUrlPath t with _ | path
    · rw [rewriteRequestLine_eq_of_nomatch hsp hab]
      exact h
    · rw [rewriteRequestLine_eq_of_match hsp hab]
      have hjoin : l = spaceJoin (m :: t :: rest) := by
        rw [← spaceJoin_splitSp 2 l, hsp]
      have hrev : ∀ q ∈ m :: t :: rest, hasCRLF q = false :=
        spaceJoin_no_crlf_rev (by rw [← hjoin]; exact h)
      obtain ⟨⟨u, v, huv⟩, -⟩ := absUrlPath_infix hab
      have hpath : hasCRLF path = false := by
        have ht : hasCRLF t = false := hrev t (by simp)
        rw [huv] at ht
        exact (hasCRLF_append (hasCRLF_append ht).1).2
      apply spaceJoin_no_crlf
      intro p hp
      rcases List.mem_cons.mp hp with rfl | hp2
      · exact hrev p (by simp)
      · rcases List.mem_cons.mp hp2 with rfl | hp3
        · exact hpath
        · exact hrev p (by simp [hp3])

theorem rewrite_idem (l : List Char) :
    rewriteRequestLine (rewriteRequestLine l) = rewriteRequestLine l := by
  rcases hsp : splitSp 2 l with _ | ⟨m, _ | ⟨t, rest⟩⟩
  · exact absurd hsp (splitSp_ne_nil 2 l)
  · rw [rewriteRequestLine_eq_single hsp, rewriteRequestLine_eq_single hsp]
  · rcases hab : absUrlPath t with _ | path
    · rw [rewriteRequestLine_eq_of_nomatch hsp hab,
        rewriteRequestLine_eq_of_nomatch hsp hab]
    · rw [rewriteRequestLine_eq_of_match hsp hab]
      obtain ⟨hm, ht, hr⟩ := splitSp2_struct hsp
      obtain ⟨⟨u, v, huv⟩, ⟨a, rfl⟩⟩ := absUrlPath_infix hab
      have hpathsp : ∀ c ∈ ('/' :: a), c ≠ ' ' := by
        intro c hc
        apply ht c
        rw [huv]
        simp only [List.mem_append]
        exact Or.inl (Or.inr hc)
      have hsp2 : splitSp 2 (spaceJoin (m :: ('/' :: a) :: rest)) =
          m :: ('/' :: a) :: rest := splitSp2_rejoin hm hpathsp hr
      rw [rewriteRequestLine_eq_of_nomatch hsp2 (absUrlPath_slash_none a)]

theorem isConn_connClose : isConnLine connClose = true := by decide

theorem connClose_no_crlf : hasCRLF connClose = false := by decide

theorem scanned_mem {ls : List (List Char)} {x : List Char}
    (hx : x ∈ ls.map (fun l => if isConnLine l then connClose else l)) :
    x = connClose ∨ (x ∈ ls ∧ isConnLine x = false) := by
  obtain ⟨l, hl, rfl⟩ := List.mem_map.mp hx
  by_cases hc : isConnLine l
  · rw [if_pos hc]
    exact Or.inl rfl
  · rw [if_neg hc]
    exact Or.inr ⟨hl, Bool.eq_false_iff.mpr hc⟩

theorem insertConn_mem {ls : List (List Char)} {x : List Char}
    (hx : x ∈ insertConn ls) : x = connClose ∨ x ∈ ls := by
  induction ls with
  | nil =>
    simp only [insertConn, List.mem_singleton] at hx
    exact Or.inl hx
  | cons l ls ih =>
    rw [insertConn] at hx
    by_cases hl : l = []
    · rw [if_pos hl] at hx
      rcases List.mem_cons.mp hx with rfl | hx2
      · exact Or.inl rfl
      · exact Or.inr hx2
    · rw [if_neg hl] at hx
      rcases List.mem_cons.mp hx with rfl | hx2
      · exact Or.inr (by simp)
      · rcases ih hx2 with h | h
        · exact Or.inl h
        · exact Or.inr (List.mem_cons_of_mem l h)

theorem connClose_mem_insertConn (ls : List (List Char)) :
    connClose ∈ insertConn ls := by
  induction ls with
  | nil => simp [insertConn]
  | cons l ls ih =>
    rw [insertConn]
    by_cases hl : l = []
    · rw [if_pos hl]
      simp
    · rw [if_neg hl]
      exact List.mem_cons_of_mem l ih

theorem map_id_of_eq {α : Type} (f : α → α) (L : List α)
    (h : ∀ x ∈ L, f x = x) : L.map f = L := by
  induction L with
  | nil => rfl
  | cons x L ih =>
    rw [List.map_cons, h x (by simp), ih (fun y hy => h y (by simp [hy]))]

theorem scan_map_id {ls : List (List Char)}
    (h : ∀ l ∈ ls, isConnLine l = false) :
    ls.map (fun l => if isConnLine l then connClose else l) = ls := by
  apply map_id_of_eq
  intro x hx
  rw [if_neg (by rw [h x hx]; simp)]

theorem transform_cons (l0 : List Char) (rest : List (List Char)) :
    transformLines (l0 :: rest) = rewriteRequestLine l0 ::
      (if rest.any isConnLine then
        rest.map (fun l => if isConnLine l then connClose else l)
      else
        insertConn (rest.map (fun l => if isConnLine l then connClose else l))) :=
  rfl

theorem transform_tail_any (rest : List (List Char)) :
    (if rest.any isConnLine then
      rest.map (fun l => if isConnLine l then connClose else l)
    else
      insertConn (rest.map (fun l => if isConnLine l then connClose else l))).any
        isConnLine = true := by
  by_cases hf : rest.any isConnLine
  · rw [if_pos hf]
    obtain ⟨x, hx, hcx⟩ := List.any_eq_true.mp hf
    apply List.any_eq_true.mpr
    refine ⟨connClose, ?_, isConn_connClose⟩
    apply List.mem_map.mpr
    exact ⟨x, hx, by rw [if_pos hcx]⟩
  · rw [if_neg hf]
    exact List.any_eq_true.mpr ⟨connClose, connClose_mem_insertConn _,
      isConn_connClose⟩

theorem transform_tail_mem {rest : List (List Char)} {x : List Char}
    (hx : x ∈ (if rest.any isConnLine then
      rest.map (fun l => if isConnLine l then connClose else l)
    else
      insertConn (rest.map (fun l => if isConnLine l then connClose else l)))) :
    x = connClose ∨ (x ∈ rest ∧ isConnLine x = false) := by
  by_cases hf : rest.any isConnLine
  · rw [if_pos hf] at hx
    exact scanned_mem hx
  · rw [if_neg hf] at hx
    rcases insertConn_mem hx with rfl | hmem
    · exact Or.inl rfl
    · exact scanned_mem hmem

theorem transform_idem (ls : List (List Char)) :
    transformLines (transformLines ls) = transformLines ls := by
  rcases ls with _ | ⟨l0, rest⟩
  · rfl
  · rw [transform_cons l0 rest, transform_cons]
    rw [rewrite_idem]
    congr 1
    rw [if_pos (transform_tail_any rest)]
    apply map_id_of_eq
    intro x hx
    rcases transform_tail_mem hx with rfl | ⟨-, hxf⟩
    · rw [if_pos isConn_connClose]
    · rw [if_neg (by rw [hxf]; simp)]

theorem transform_ne_nil (l0 : List Char) (rest : List (List Char)) :
    transformLines (l0 :: rest) ≠ [] := by
  rw [transform_cons]
  simp

theorem transform_no_crlf (ls : List (List Char))
    (h : ∀ p ∈ ls, hasCRLF p = false) :
    ∀ p ∈ transformLines ls, hasCRLF p = false := by
  rcases ls with _ | ⟨l0, rest⟩
  · intro p hp
    simp [transformLines] at hp
  · intro p hp
    rw [transform_cons] at hp
    rcases List.mem_cons.mp hp with rfl | hp2
    · exact rewrite_no_crlf (h _ (by simp))
    · rcases transform_tail_mem hp2 with rfl | ⟨hmem, -⟩
      · exact connClose_no_crlf
      · exact h p (by simp [hmem])

/-- The rewritten request splits back into exactly the transformed lines:
the CRLF-join of the transformed lines re-splits to them. -/
theorem crSplit_modify_headers (R : List Char) {l0 : List Char}
    {rest : List (List Char)} (hsp : crSplit R = l0 :: rest) :
    crSplit (modify_headers R) = transformLines (l0 :: rest) ∧
      modify_headers R = crJoin (transformLines (l0 :: rest)) := by
  have hmh : modify_headers R = crJoin (transformLines (l0 :: rest)) := by
    simp only [modify_headers, hsp]
  have hok : ∀ p ∈ transformLines (l0 :: rest), hasCRLF p = false := by
    apply transform_no_crlf
    rw [← hsp]
    exact hasCRLF_mem_crSplit R
  refine ⟨?_, hmh⟩
  rw [hmh]
  exact crSplit_crJoin (transform_ne_nil l0 rest) hok

/-- Number of lines after the first whose lowercased form starts with
`connection:` (the claim's notion of "contains a Connection: header"). -/
def countConn (s : List Char) : Nat :=
  ((crSplit s).drop 1).countP isConnLine

theorem countP_scan (rest : List (List Char)) :
    (rest.map (fun l => if isConnLine l then connClose else l)).countP
      isConnLine = rest.countP isConnLine := by
  induction rest with
  | nil => rfl
  | cons l ls ih =>
    rw [List.map_cons, List.countP_cons, List.countP_cons, ih]
    by_cases hc : isConnLine l
    · rw [if_pos hc]
      simp [isConn_connClose, hc]
    · rw [if_neg hc]

theorem insertConn_countP {ls : List (List Char)}
    (h : ∀ l ∈ ls, isConnLine l = false) :
    (insertConn ls).countP isConnLine = 1 := by
  induction ls with
  | nil => simp [insertConn, isConn_connClose]
  | cons l ls ih =>
    rw [insertConn]
    by_cases hl : l = []
    · rw [if_pos hl, List.countP_cons]
      have hz : (l :: ls).countP isConnLine = 0 :=
        List.countP_eq_zero.mpr (fun x hx => by simp [h x hx])
      rw [hz, isConn_connClose]
      simp
    · rw [if_neg hl, List.countP_cons,
        ih (fun x hx => h x (by simp [hx])), h l (by simp)]
      simp

/-- C2: the header rewrite is idempotent: for every request string `R`,
`modify_headers (modify_headers R)` equals `modify_headers R` character
for character. -/
theorem C2_modify_headers_idempotent (R : List Char) :
    modify_headers (modify_headers R) = modify_headers R := by
  rcases hsp : crSplit R with _ | ⟨l0, rest⟩
  · exact absurd hsp (crSplit_ne_nil R)
  · obtain ⟨hsp2, hmh⟩ := crSplit_modify_headers R hsp
    rcases hT : transformLines (l0 :: rest) with _ | ⟨m0, mrest⟩
    · exact absurd hT (transform_ne_nil l0 rest)
    · have h2 : modify_headers (modify_headers R) =
          crJoin (transformLines (m0 :: mrest)) := by
        set X := modify_headers R with hX
        simp only [modify_headers, hsp2, hT]
      rw [h2, ← hT, transform_idem, ← hmh]

/-- C6 (amended): every rewritten request contains at least one line
after the first starting (case-insensitively) with `connection:`, every
such line is exactly `Connection: close`, and the number of such lines
is `max 1 k` where `k` is their number in the input; in particular it is
one exactly when the input had at most one such line. -/
theorem C6_connection_close_amended (R : List Char) :
    1 ≤ countConn (modify_headers R) ∧
    (∀ l ∈ (crSplit (modify_headers R)).drop 1,
        isConnLine l = true → l = connClose) ∧
    countConn (modify_headers R) = max 1 (countConn R) := by
  rcases hsp : crSplit R with _ | ⟨l0, rest⟩
  · exact absurd hsp (crSplit_ne_nil R)
  · obtain ⟨hsp2, -⟩ := crSplit_modify_headers R hsp
    have hdrop : (crSplit (modify_headers R)).drop 1 =
        (if rest.any isConnLine then
          rest.map (fun l => if isConnLine l then connClose else l)
        else
          insertConn (rest.map (fun l => if isConnLine l then connClose else l))) := by
      rw [hsp2, transform_cons]
      rfl
    have hdropR : (crSplit R).drop 1 = rest := by
      rw [hsp]
      rfl
    have hcount : countConn (modify_headers R) = max 1 (countConn R) := by
      rw [countConn, countConn, hdrop, hdropR]
      by_cases hf : rest.any isConnLine
      · rw [if_pos hf, countP_scan]
        have hpos : 0 < rest.countP isConnLine := by
          obtain ⟨x, hx, hcx⟩ := List.any_eq_true.mp hf
          exact List.countP_pos_iff.mpr ⟨x, hx, hcx⟩
        omega
      · have hall : ∀ l ∈ rest, isConnLine l = false := by
          intro l hl
          have := List.any_eq_false.mp (Bool.eq_false_iff.mpr hf) l hl
          simpa using this
        rw [if_neg hf, scan_map_id hall, insertConn_countP hall]
        have hz : rest.countP isConnLine = 0 :=
          List.countP_eq_zero.mpr (fun x hx => by simp [hall x hx])
        omega
    refine ⟨?_, ?_, hcount⟩
    · rw [hcount]
      exact le_max_left 1 _
    · intro l hl hconn
      rw [hdrop] at hl
      rcases transform_tail_mem hl with rfl | ⟨-, hfl⟩
      · rfl
      · rw [hconn] at hfl
        exact absurd hfl (by simp)

/-- C6 counterexample: a request with two `Connection:` headers is
rewritten to a request with two `Connection:` lines, so the output does
not contain exactly one `Connection:` header. -/
theorem C6_counterexample :
    countConn (modify_headers
      ("GET / HTTP/1.1\r\nConnection: keep-alive\r\nConnection: foo\r\n\r\n".data))
      ≠ 1 := by
  decide

end Headers

namespace Utf8

/-- Lowercase hex digit (as a codepoint) for `0 ≤ n < 16`. -/
def hexDigit (n : Nat) : Nat := if n < 10 then 48 + n else 87 + n

/-- Codepoints of Python's `backslashreplace` escape `\xNN` for byte `b`. -/
def escB (b : Nat) : List Nat := [92, 120, hexDigit (b / 16), hexDigit (b % 16)]

/-- Second-byte range check for a three-byte lead, per RFC 3629 /
CPython: lead `E0` needs `A0..BF` (no overlongs), lead `ED` needs
`80..9F` (no surrogates), other leads need `80..BF`. -/
def cont2ok (b0 b1 : Nat) : Bool :=
  if b0 = 0xE0 then decide (0xA0 ≤ b1 ∧ b1 ≤ 0xBF)
  else if b0 = 0xED then decide (0x80 ≤ b1 ∧ b1 ≤ 0x9F)
  else decide (0x80 ≤ b1 ∧ b1 ≤ 0xBF)

/-- Second-byte range check for a four-byte lead: lead `F0` needs
`90..BF` (no overlongs), lead `F4` needs `80..8F` (max `U+10FFFF`),
other leads need `80..BF`. -/
def cont3ok (b0 b1 : Nat) : Bool :=
  if b0 = 0xF0 then decide (0x90 ≤ b1 ∧ b1 ≤ 0xBF)
  else if b0 = 0xF4 then decide (0x80 ≤ b1 ∧ b1 ≤ 0x8F)
  else decide (0x80 ≤ b1 ∧ b1 ≤ 0xBF)

/-- CPython's incremental UTF-8 decoder with a pluggable error handler,
written with a step-count (`fuel`) so that the recursion is structural;
`decodeUtf8` below instantiates the fuel with the length of the input,
which always suffices (each step consumes at least one byte).
A valid sequence (RFC 3629: no overlongs, no surrogates, max `U+10FFFF`)
is decoded; on an invalid sequence the decoder consumes one byte,
substitutes the error handler's output for it, and resumes.  This is
byte-for-byte the output of CPython's maximal-subpart policy, because
the extra bytes CPython groups into one error are continuation bytes
(`80..BF`), which are themselves invalid as sequence starts and produce
the same substitutions one at a time (checked against CPython on the
examples below). -/
def decodeF (onErr : Nat → List Nat) : Nat → List Nat → List Nat
  | _, [] => []
  | 0, _ :: _ => []
  | fuel + 1, b0 :: rest =>
    if b0 < 0x80 then b0 :: decodeF onErr fuel rest
    else if 0xC2 ≤ b0 ∧ b0 ≤ 0xDF then
      match rest with
      | b1 :: rest2 =>
        if 0x80 ≤ b1 ∧ b1 ≤ 0xBF then
          ((b0 - 0xC0) * 64 + (b1 - 0x80)) :: decodeF onErr fuel rest2
        else onErr b0 ++ decodeF onErr fuel rest
      | [] => onErr b0
    else if 0xE0 ≤ b0 ∧ b0 ≤ 0xEF then
      match rest with
      | b1 :: b2 :: rest3 =>
        if cont2ok b0 b1 ∧ 0x80 ≤ b2 ∧ b2 ≤ 0xBF then
          ((b0 - 0xE0) * 4096 + (b1 - 0x80) * 64 + (b2 - 0x80)) ::
            decodeF onErr fuel rest3
        else onErr b0 ++ decodeF onErr fuel rest
      | _ => onErr b0 ++ decodeF onErr fuel rest
    else if 0xF0 ≤ b0 ∧ b0 ≤ 0xF4 then
      match rest with
      | b1 :: b2 :: b3 :: rest4 =>
        if cont3ok b0 b1 ∧ 0x80 ≤ b2 ∧ b2 ≤ 0xBF ∧ 0x80 ≤ b3 ∧ b3 ≤ 0xBF then
          ((b0 - 0xF0) * 262144 + (b1 - 0x80) * 4096 + (b2 - 0x80) * 64 +
            (b3 - 0x80)) :: decodeF onErr fuel rest4
        else onErr b0 ++ decodeF onErr fuel rest
      | _ => onErr b0 ++ decodeF onErr fuel rest
    else onErr b0 ++ decodeF onErr fuel rest

/-- `bytes.decode('utf-8', handler)`: run `decodeF` with enough fuel.
With `onErr := escB` this is the `backslashreplace` handler; with
`onErr := fun _ => []` it is `ignore`. -/
def decodeUtf8 (onErr : Nat → List Nat) (bs : List Nat) : List Nat :=
  decodeF onErr bs.length bs

/-- The UTF-8 encoding of one Unicode scalar value (CPython
`str.encode('utf-8')`, per character). -/
def encodeChar (c : Nat) : List Nat :=
  if c < 0x80 then [c]
  else if c < 0x800 then [0xC0 + c / 64, 0x80 + c % 64]
  else if c < 0x10000 then
    [0xE0 + c / 4096, 0x80 + (c / 64) % 64, 0x80 + c % 64]
  else
    [0xF0 + c / 262144, 0x80 + (c / 4096) % 64, 0x80 + (c / 64) % 64,
      0x80 + c % 64]

/-- `str.encode('utf-8')` over a Python string modelled as its list of
codepoints. -/
def encodeUtf8 (cps : List Nat) : List Nat := (cps.map encodeChar).flatten

/-- A Unicode scalar value: what a Python `str` produced by a UTF-8
decode can contain. -/
def validScalar (n : Nat) : Prop := n < 0x110000 ∧ ¬(0xD800 ≤ n ∧ n ≤ 0xDFFF)

end Utf8

section Utf8Sanity

example : Utf8.decodeUtf8 Utf8.escB [255] = [92, 120, 102, 102] := by decide

example : Utf8.decodeUtf8 Utf8.escB [0x41, 0xC3, 0xA9] = [65, 233] := by decide

example : Utf8.encodeUtf8 [65, 233, 0x20AC, 0x1F600] =
    [65, 0xC3, 0xA9, 0xE2, 0x82, 0xAC, 0xF0, 0x9F, 0x98, 0x80] := by decide

example : Utf8.decodeUtf8 (fun _ => []) [0x41, 0xFF, 0x42] = [65, 66] := by
  decide

example : Utf8.decodeUtf8 Utf8.escB [0xE0, 0xA0] = [92, 120, 101, 48, 92, 120, 97, 48] := by decide

end Utf8Sanity

namespace Utf8

theorem decodeF_nil (onErr : Nat → List Nat) (f : Nat) :
    decodeF onErr f [] = [] := by
  cases f <;> rfl

theorem decodeF_cons (onErr : Nat → List Nat) (fuel b0 : Nat)
    (rest : List Nat) :
    decodeF onErr (fuel + 1) (b0 :: rest) =
      (if b0 < 0x80 then b0 :: decodeF onErr fuel rest
      else if 0xC2 ≤ b0 ∧ b0 ≤ 0xDF then
        match rest with
        | b1 :: rest2 =>
          if 0x80 ≤ b1 ∧ b1 ≤ 0xBF then
            ((b0 - 0xC0) * 64 + (b1 - 0x80)) :: decodeF onErr fuel rest2
          else onErr b0 ++ decodeF onErr fuel rest
        | [] => onErr b0
      else if 0xE0 ≤ b0 ∧ b0 ≤ 0xEF then
        match rest with
        | b1 :: b2 :: rest3 =>
          if cont2ok b0 b1 ∧ 0x80 ≤ b2 ∧ b2 ≤ 0xBF then
            ((b0 - 0xE0) * 4096 + (b1 - 0x80) * 64 + (b2 - 0x80)) ::
              decodeF onErr fuel rest3
          else onErr b0 ++ decodeF onErr fuel rest
        | _ => onErr b0 ++ decodeF onErr fuel rest
      else if 0xF0 ≤ b0 ∧ b0 ≤ 0xF4 then
        match rest with
        | b1 :: b2 :: b3 :: rest4 =>
          if cont3ok b0 b1 ∧ 0x80 ≤ b2 ∧ b2 ≤ 0xBF ∧ 0x80 ≤ b3 ∧ b3 ≤ 0xBF then
            ((b0 - 0xF0) * 262144 + (b1 - 0x80) * 4096 + (b2 - 0x80) * 64 +
              (b3 - 0x80)) :: decodeF onErr fuel rest4
          else onErr b0 ++ decodeF onErr fuel rest
        | _ => onErr b0 ++ decodeF onErr fuel rest
      else onErr b0 ++ decodeF onErr fuel rest) := rfl

/-- The decoder does not depend on the fuel once it covers the input
length. -/
theorem decodeF_congr (onErr : Nat → List Nat) :
    ∀ f g bs, bs.length ≤ f → bs.length ≤ g →
      decodeF onErr f bs = decodeF onErr g bs := by
  intro f
  induction f with
  | zero =>
    intro g bs hf hg
    have hbs : bs = [] := List.eq_nil_of_length_eq_zero (Nat.le_zero.mp hf)
    subst hbs
    rw [decodeF_nil, decodeF_nil]
  | succ f ih =>
    intro g bs hf hg
    rcases bs with _ | ⟨b0, rest⟩
    · rw [decodeF_nil, decodeF_nil]
    · rcases g with _ | g
      · simp at hg
      · simp only [List.length_cons] at hf hg
        rw [decodeF_cons, decodeF_cons]
        by_cases c1 : b0 < 0x80
        · rw [if_pos c1, if_pos c1]
          congr 1
          exact ih g rest (by omega) (by omega)
        · rw [if_neg c1, if_neg c1]
          by_cases c2 : 0xC2 ≤ b0 ∧ b0 ≤ 0xDF
          · rw [if_pos c2, if_pos c2]
            rcases rest with _ | ⟨b1, rest2⟩
            · rfl
            · simp only [List.length_cons] at hf hg
              simp only []
              by_cases c2b : 0x80 ≤ b1 ∧ b1 ≤ 0xBF
              · rw [if_pos c2b, if_pos c2b]
                congr 1
                exact ih g rest2 (by omega) (by omega)
              · rw [if_neg c2b, if_neg c2b]
                congr 1
                exact ih g (b1 :: rest2) (by simp; omega) (by simp; omega)
          · rw [if_neg c2, if_neg c2]
            by_cases c3 : 0xE0 ≤ b0 ∧ b0 ≤ 0xEF
            · rw [if_pos c3, if_pos c3]
              rcases rest with _ | ⟨b1, _ | ⟨b2, rest3⟩⟩
              · simp only []
                rw [decodeF_nil, decodeF_nil]
              · simp only [List.length_cons] at hf hg
                simp only []
                congr 1
                exact ih g [b1] (by simp; omega) (by simp; omega)
              · simp only [List.length_cons] at hf hg
                simp only []
                by_cases c3b : cont2ok b0 b1 ∧ 0x80 ≤ b2 ∧ b2 ≤ 0xBF
                · rw [if_pos c3b, if_pos c3b]
                  congr 1
                  exact ih g rest3 (by omega) (by omega)
                · rw [if_neg c3b, if_neg c3b]
                  congr 1
                  exact ih g (b1 :: b2 :: rest3) (by simp; omega) (by simp; omega)
            · rw [if_neg c3, if_neg c3]
              by_cases c4 : 0xF0 ≤ b0 ∧ b0 ≤ 0xF4
              · rw [if_pos c4, if_pos c4]
                rcases rest with _ | ⟨b1, _ | ⟨b2, _ | ⟨b3, rest4⟩⟩⟩
                · simp only []
                  rw [decodeF_nil, decodeF_nil]
                · simp only [List.length_cons] at hf hg
                  simp only []
                  congr 1
                  exact ih g [b1] (by simp; omega) (by simp; omega)
                · simp only [List.length_cons] at hf hg
                  simp only []
                  congr 1
                  exact ih g [b1, b2] (by simp; omega) (by simp; omega)
                · simp only [List.length_cons] at hf hg
                  simp only []
                  by_cases c4b : cont3ok b0 b1 ∧ 0x80 ≤ b2 ∧ b2 ≤ 0xBF ∧
                      0x80 ≤ b3 ∧ b3 ≤ 0xBF
                  · rw [if_pos c4b, if_pos c4b]
                    congr 1
                    exact ih g rest4 (by omega) (by omega)
                  · rw [if_neg c4b, if_neg c4b]
                    congr 1
                    exact ih g (b1 :: b2 :: b3 :: rest4) (by simp; omega)
                      (by simp; omega)
              · rw [if_neg c4, if_neg c4]
                congr 1
                exact ih g rest (by omega) (by omega)

theorem decode1 (onErr : Nat → List Nat) (b : Nat) (bs : List Nat)
    (h : b < 0x80) :
    decodeUtf8 onErr (b :: bs) = b :: decodeUtf8 onErr bs := by
  rw [decodeUtf8, decodeUtf8]
  show decodeF onErr (bs.length + 1) (b :: bs) = _
  rw [decodeF_cons, if_pos h]

theorem decode2 (onErr : Nat → List Nat) (q r : Nat) (bs : List Nat)
    (hq1 : 2 ≤ q) (hq2 : q ≤ 0x1F) (hr : r < 64) :
    decodeUtf8 onErr ((0xC0 + q) :: (0x80 + r) :: bs) =
      (q * 64 + r) :: decodeUtf8 onErr bs := by
  rw [decodeUtf8, decodeUtf8]
  show decodeF onErr (bs.length + 1 + 1) ((0xC0 + q) :: (0x80 + r) :: bs) = _
  rw [decodeF_cons,
    if_neg (show ¬ (0xC0 + q < 0x80) by omega),
    if_pos (show 0xC2 ≤ 0xC0 + q ∧ 0xC0 + q ≤ 0xDF by omega)]
  simp only []
  rw [if_pos (show 0x80 ≤ 0x80 + r ∧ 0x80 + r ≤ 0xBF by omega)]
  rw [decodeF_congr onErr (bs.length + 1) bs.length bs (by omega) (by omega)]
  simp only [Nat.add_sub_cancel_left]

theorem decode3 (onErr : Nat → List Nat) (q2 q1 r : Nat) (bs : List Nat)
    (hq2 : q2 ≤ 0xF) (hq1 : q1 < 64) (hr : r < 64)
    (hcont : cont2ok (0xE0 + q2) (0x80 + q1) = true) :
    decodeUtf8 onErr ((0xE0 + q2) :: (0x80 + q1) :: (0x80 + r) :: bs) =
      (q2 * 4096 + q1 * 64 + r) :: decodeUtf8 onErr bs := by
  rw [decodeUtf8, decodeUtf8]
  show decodeF onErr (bs.length + 1 + 1 + 1)
    ((0xE0 + q2) :: (0x80 + q1) :: (0x80 + r) :: bs) = _
  rw [decodeF_cons,
    if_neg (show ¬ (0xE0 + q2 < 0x80) by omega),
    if_neg (show ¬ (0xC2 ≤ 0xE0 + q2 ∧ 0xE0 + q2 ≤ 0xDF) by omega),
    if_pos (show 0xE0 ≤ 0xE0 + q2 ∧ 0xE0 + q2 ≤ 0xEF by omega)]
  simp only []
  rw [if_pos ⟨hcont, by omega, by omega⟩]
  rw [decodeF_congr onErr (bs.length + 1 + 1) bs.length bs (by omega) (by omega)]
  simp only [Nat.add_sub_cancel_left]

theorem decode4 (onErr : Nat → List Nat) (q3 q2 q1 r : Nat) (bs : List Nat)
    (hq3 : q3 ≤ 4) (hq2 : q2 < 64) (hq1 : q1 < 64) (hr : r < 64)
    (hcont : cont3ok (0xF0 + q3) (0x80 + q2) = true) :
    decodeUtf8 onErr
        ((0xF0 + q3) :: (0x80 + q2) :: (0x80 + q1) :: (0x80 + r) :: bs) =
      (q3 * 262144 + q2 * 4096 + q1 * 64 + r) :: decodeUtf8 onErr bs := by
  rw [decodeUtf8, decodeUtf8]
  show decodeF onErr (bs.length + 1 + 1 + 1 + 1)
    ((0xF0 + q3) :: (0x80 + q2) :: (0x80 + q1) :: (0x80 + r) :: bs) = _
  rw [decodeF_cons,
    if_neg (show ¬ (0xF0 + q3 < 0x80) by omega),
    if_neg (show ¬ (0xC2 ≤ 0xF0 + q3 ∧ 0xF0 + q3 ≤ 0xDF) by omega),
    if_neg (show ¬ (0xE0 ≤ 0xF0 + q3 ∧ 0xF0 + q3 ≤ 0xEF) by omega),
    if_pos (show 0xF0 ≤ 0xF0 + q3 ∧ 0xF0 + q3 ≤ 0xF4 by omega)]
  simp only []
  rw [if_pos ⟨hcont, by omega, by omega, by omega, by omega⟩]
  rw [decodeF_congr onErr (bs.length + 1 + 1 + 1) bs.length bs (by omega)
    (by omega)]
  simp only [Nat.add_sub_cancel_left]

/-- Decoding the UTF-8 encoding of one Unicode scalar value in front of
any byte tail recovers the scalar and continues with the tail. -/
theorem decode_encodeChar (onErr : Nat → List Nat) {n : Nat}
    (h1 : n < 0x110000) (h2 : ¬(0xD800 ≤ n ∧ n ≤ 0xDFFF)) (bs : List Nat) :
    decodeUtf8 onErr (encodeChar n ++ bs) = n :: decodeUtf8 onErr bs := by
  by_cases c1 : n < 0x80
  · simp only [encodeChar]
    rw [if_pos c1]
    exact decode1 onErr n bs c1
  · by_cases c2 : n < 0x800
    · simp only [encodeChar]
      rw [if_neg c1, if_pos c2]
      have hq := Nat.div_add_mod n 64
      have hr : n % 64 < 64 := Nat.mod_lt _ (by norm_num)
      show decodeUtf8 onErr ((0xC0 + n / 64) :: (0x80 + n % 64) :: bs) = _
      rw [decode2 onErr (n / 64) (n % 64) bs (by omega) (by omega) hr]
      congr 1
      omega
    · by_cases c3 : n < 0x10000
      · simp only [encodeChar]
        rw [if_neg c1, if_neg c2, if_pos c3]
        have hq := Nat.div_add_mod n 64
        have hq64 := Nat.div_add_mod (n / 64) 64
        have hdd : n / 64 / 64 = n / 4096 := by
          rw [Nat.div_div_eq_div_mul]
        rw [hdd] at hq64
        have hr : n % 64 < 64 := Nat.mod_lt _ (by norm_num)
        have hr1 : (n / 64) % 64 < 64 := Nat.mod_lt _ (by norm_num)
        have hcont : cont2ok (0xE0 + n / 4096) (0x80 + (n / 64) % 64) = true := by
          rw [cont2ok]
          by_cases hz : n / 4096 = 0
          · rw [if_pos (show (0xE0 + n / 4096 : Nat) = 0xE0 by omega)]
            simp only [decide_eq_true_eq]
            omega
          · by_cases hd : n / 4096 = 13
            · rw [if_neg (show ¬ (0xE0 + n / 4096 : Nat) = 0xE0 by omega),
                if_pos (show (0xE0 + n / 4096 : Nat) = 0xED by omega)]
              simp only [decide_eq_true_eq]
              omega
            · rw [if_neg (show ¬ (0xE0 + n / 4096 : Nat) = 0xE0 by omega),
                if_neg (show ¬ (0xE0 + n / 4096 : Nat) = 0xED by omega)]
              simp only [decide_eq_true_eq]
              omega
        show decodeUtf8 onErr
            ((0xE0 + n / 4096) :: (0x80 + (n / 64) % 64) :: (0x80 + n % 64) :: bs) = _
        rw [decode3 onErr (n / 4096) ((n / 64) % 64) (n % 64) bs (by omega)
          hr1 hr hcont]
        congr 1
        omega
      · simp only [encodeChar]
        rw [if_neg c1, if_neg c2, if_neg c3]
        have hq := Nat.div_add_mod n 64
        have hq64 := Nat.div_add_mod (n / 64) 64
        have hdd : n / 64 / 64 = n / 4096 := by
          rw [Nat.div_div_eq_div_mul]
        rw [hdd] at hq64
        have hq4096 := Nat.div_add_mod (n / 4096) 64
        have hdd2 : n / 4096 / 64 = n / 262144 := by
          rw [Nat.div_div_eq_div_mul]
        rw [hdd2] at hq4096
        have hr : n % 64 < 64 := Nat.mod_lt _ (by norm_num)
        have hr1 : (n / 64) % 64 < 64 := Nat.mod_lt _ (by norm_num)
        have hr2 : (n / 4096) % 64 < 64 := Nat.mod_lt _ (by norm_num)
        have hcont : cont3ok (0xF0 + n / 262144) (0x80 + (n / 4096) % 64) = true := by
          rw [cont3ok]
          by_cases hz : n / 262144 = 0
          · rw [if_pos (show (0xF0 + n / 262144 : Nat) = 0xF0 by omega)]
            simp only [decide_eq_true_eq]
            omega
          · by_cases hd : n / 262144 = 4
            · rw [if_neg (show ¬ (0xF0 + n / 262144 : Nat) = 0xF0 by omega),
                if_pos (show (0xF0 + n / 262144 : Nat) = 0xF4 by omega)]
              simp only [decide_eq_true_eq]
              omega
            · rw [if_neg (show ¬ (0xF0 + n / 262144 : Nat) = 0xF0 by omega),
                if_neg (show ¬ (0xF0 + n / 262144 : Nat) = 0xF4 by omega)]
              simp only [decide_eq_true_eq]
              omega
        show decodeUtf8 onErr
            ((0xF0 + n / 262144) :: (0x80 + (n / 4096) % 64) ::
              (0x80 + (n / 64) % 64) :: (0x80 + n % 64) :: bs) = _
        rw [decode4 onErr (n / 262144) ((n / 4096) % 64) ((n / 64) % 64)
          (n % 64) bs (by omega) hr2 hr1 hr hcont]
        congr 1
        omega

/-- Decoding the UTF-8 encoding of a Python string (a list of Unicode
scalar values) recovers the string, regardless of the error handler. -/
theorem decode_encodeUtf8 (onErr : Nat → List Nat) (cps : List Nat)
    (h : ∀ n ∈ cps, validScalar n) :
    decodeUtf8 onErr (encodeUtf8 cps) = cps := by
  induction cps with
  | nil => rfl
  | cons c cs ih =>
    have hc := h c (by simp)
    have hrest : encodeUtf8 (c :: cs) = encodeChar c ++ encodeUtf8 cs := by
      simp [encodeUtf8]
    rw [hrest, decode_encodeChar onErr hc.1 hc.2, ih (fun n hn => h n (by simp [hn]))]

end Utf8

/-! ## The request classifier (`proxy.parse_server_info`)

The classifier receives the raw client bytes, decodes them with
`utf-8`/`ignore`, takes the first line, strips it, splits it on single
spaces (at most twice), and branches on the upper-cased method.  Any
exception inside the `try` block yields `(None, None, None, False)`; in
the model every fallible step (here only `int(...)`) returns an `Option`
and its `none` is routed to that same quadruple, which is exactly the
behaviour of the `except` clause.  Python's `str.upper`/`str.lower` are
full-Unicode while `Char.toUpper`/`Char.toLower` are ASCII-only; the
requests the claims quantify over are ASCII, and the `CONNECT`
comparison and lower-casing are unaffected on ASCII input. -/

namespace Parse

/-- The code points `str.splitlines` treats as line boundaries
(checked against CPython): backslash-escapes n, v, f, r, x1c, x1d,
x1e, x85 and U+2028, U+2029; a CRLF pair is one boundary, which does
not matter for the first line. -/
def isLineBoundary (c : Char) : Bool :=
  c.toNat = 10 ∨ c.toNat = 11 ∨ c.toNat = 12 ∨ c.toNat = 13 ∨
  c.toNat = 28 ∨ c.toNat = 29 ∨ c.toNat = 30 ∨ c.toNat = 133 ∨
  c.toNat = 8232 ∨ c.toNat = 8233

/-- The code points `str.isspace` accepts (what `str.strip()` and
`int(str)` strip; checked against CPython). -/
def isPySpace (c : Char) : Bool :=
  (9 ≤ c.toNat ∧ c.toNat ≤ 13) ∨ (28 ≤ c.toNat ∧ c.toNat ≤ 32) ∨
  c.toNat = 133 ∨ c.toNat = 160 ∨ c.toNat = 5760 ∨
  (8192 ≤ c.toNat ∧ c.toNat ≤ 8202) ∨ c.toNat = 8232 ∨ c.toNat = 8233 ∨
  c.toNat = 8239 ∨ c.toNat = 8287 ∨ c.toNat = 12288

/-- Python `s.strip()`: drop `isspace` characters from both ends. -/
def stripPy (s : List Char) : List Char :=
  ((s.dropWhile isPySpace).reverse.dropWhile isPySpace).reverse

def isAsciiDigit (c : Char) : Bool := decide ('0' ≤ c ∧ c ≤ '9')

/-- The digit part of `int(str)` after sign handling: a non-empty run
of decimal digits in which a single `_` may stand between two digits
(CPython: `int("1_2") = 12`, while `int("_1")`, `int("1_")` and
`int("1__2")` raise).  `prevDigit` records whether the previous
character was a digit, so `_` is only accepted after a digit and the
run must end in a digit. -/
def pyDigitsGo (acc : Nat) (prevDigit : Bool) : List Char → Option Nat
  | [] => if prevDigit then some acc else none
  | c :: cs =>
    if isAsciiDigit c then pyDigitsGo (acc * 10 + (c.toNat - 48)) true cs
    else if c = '_' ∧ prevDigit then pyDigitsGo acc false cs
    else none

/-- Python `int(s)` for a `str` argument: strip whitespace, an optional
single `+`/`-` sign, then digits with optional single underscores;
`none` models the `ValueError` the surrounding `except` turns into an
invalid result.  (CPython also accepts non-ASCII decimal digits; the
claims quantify over ASCII requests.) -/
def pyInt (s : List Char) : Option Int :=
  match stripPy s with
  | '+' :: r => (pyDigitsGo 0 false r).map (fun n => (n : Int))
  | '-' :: r => (pyDigitsGo 0 false r).map (fun n => -(n : Int))
  | r => (pyDigitsGo 0 false r).map (fun n => (n : Int))

/-- `client_data_bytes.decode('utf-8', 'ignore')`: the decoded code
points (errors dropped) as characters. -/
def textOf (bs : List Nat) : List Char :=
  (Utf8.decodeUtf8 (fun _ => []) bs).map Char.ofNat

/-- `lines[0].strip()`: the text up to the first line boundary,
stripped.  (`splitlines()` of a non-empty string always has a first
element, which is this prefix; the empty string is handled separately
by the caller.) -/
def firstLineOf (bs : List Nat) : List Char :=
  stripPy ((textOf bs).takeWhile (fun c => ¬ isLineBoundary c))

/-- `target.split(":", 1)[0]` when `":" in target`. -/
def connectHost (t : List Char) : List Char := t.takeWhile (fun c => c ≠ ':')

/-- `target.split(":", 1)[1]` when `":" in target`: everything after the
first colon. -/
def connectPortStr (t : List Char) : List Char :=
  (t.dropWhile (fun c => c ≠ ':')).drop 1

/-- `$` of the URL pattern: matches at the end of the string or just
before one final trailing newline. -/
def endOk : List Char → Bool
  | [] => true
  | [c] => c = '\n'
  | _ => false

/-- The suffix `(?::(\d+))?(/.*)?$` of the classifier's URL pattern,
applied to what remains after the greedy host run; returns group 3 (the
port digits) when the suffix matches.  The remainder starts with `:`,
`/`, or is empty, since the host run only stops there.  Greedy matching
is deterministic: a shortened `\d+` leaves a digit where only `/` or the
end may stand, and skipping the port group leaves the `:` unmatched. -/
def afterHost : List Char → Option (Option (List Char))
  | [] => some none
  | ':' :: r =>
    let ds := r.takeWhile isAsciiDigit
    let rem := r.dropWhile isAsciiDigit
    if ds = [] then none
    else if endOk rem then some (some ds)
    else
      match rem with
      | '/' :: u => if (Headers.dotStarEnd u).isSome then some (some ds) else none
      | _ => none
  | '/' :: u => if (Headers.dotStarEnd u).isSome then some none else none
  | _ => none

/-- The classifier's pattern `^(https?://)?([^/:]+)(?::(\d+))?(/.*)?$`,
returning `(group 2, group 3)` on a match.  The optional scheme is
consumed greedily when present; backtracking to an unconsumed scheme
never rescues a failed match, because the host run would then stop at
the scheme's `:`, after which neither the port group (no digit at `/`)
nor `(/.*)?$` (at a `:`) can continue.  A shortened host run leaves a
non-`/:` character where only `:`, `/` or the end may stand. -/
def matchUrl (target : List Char) : Option (List Char × Option (List Char)) :=
  let rest1 :=
    if Headers.startsWith ("https://".data) target then target.drop 8
    else if Headers.startsWith ("http://".data) target then target.drop 7
    else target
  let host := rest1.takeWhile (fun c => ¬ (c = '/' ∨ c = ':'))
  let rem := rest1.dropWhile (fun c => ¬ (c = '/' ∨ c = ':'))
  if host = [] then none
  else
    match afterHost rem with
    | some ds => some (host, ds)
    | none => none

/-- `proxy.parse_server_info` over the raw client bytes, returning
`(hostname, port, is_connect, valid)`.  Every `return None, None, None,
False` and the `except` clause map to `(none, none, none, false)`. -/
def parse_server_info (client_data_bytes : List Nat) :
    Option (List Char) × Option Int × Option Bool × Bool :=
  if textOf client_data_bytes = [] then (none, none, none, false)
  else
    match Headers.splitSp 2 (firstLineOf client_data_bytes) with
    | p0 :: p1 :: _ =>
      if p0.map Char.toUpper = "CONNECT".data then
        if p1.contains ':' then
          match pyInt (connectPortStr p1) with
          | some v =>
            (some ((connectHost p1).map Char.toLower), some v, some true, true)
          | none => (none, none, none, false)
        else (none, none, none, false)
      else
        match matchUrl p1 with
        | some (host, some d) =>
          match pyInt d with
          | some v => (some (host.map Char.toLower), some v, some false, true)
          | none => (none, none, none, false)
        | some (host, none) =>
          (some (host.map Char.toLower),
            some (if Headers.startsWith ("https://".data) p1 then 443 else 80),
            some false, true)
        | none => (none, none, none, false)
    | _ => (none, none, none, false)

end Parse

section ParseSanity

/- Each example below is checked against CPython's `parse_server_info`
on the same bytes. -/

example : Parse.parse_server_info
    ("CONNECT h:0 HTTP/1.1\r\n\r\n".data.map Char.toNat) =
    (some ['h'], some 0, some true, true) := by decide

example : Parse.parse_server_info
    ("GET http://Ex.COM:8080/p HTTP/1.1\r\nHost: x\r\n\r\n".data.map
      Char.toNat) =
    (some "ex.com".data, some 8080, some false, true) := by decide

example : Parse.parse_server_info
    ("GET example.com HTTP/1.1\r\n".data.map Char.toNat) =
    (some "example.com".data, some 80, some false, true) := by decide

example : Parse.parse_server_info ("GET /path HTTP/1.1\r\n".data.map
    Char.toNat) = (none, none, none, false) := by decide

example : Parse.parse_server_info ("CONNECT example.com HTTP/1.1".data.map
    Char.toNat) = (none, none, none, false) := by decide

example : Parse.parse_server_info ("CONNECT h:99999 HTTP/1.1".data.map
    Char.toNat) = (some ['h'], some 99999, some true, true) := by decide

example : Parse.parse_server_info ("CONNECT h:-5 HTTP/1.1".data.map
    Char.toNat) = (some ['h'], some (-5), some true, true) := by decide

example : Parse.parse_server_info [] = (none, none, none, false) := by decide

example : Parse.parse_server_info
    ("GET https://secure.example.com/ HTTP/1.1".data.map Char.toNat) =
    (some "secure.example.com".data, some 443, some false, true) := by decide

example : Parse.parse_server_info
    ("GET http://h/ HTTP/1.1".data.map Char.toNat ++ [0xFF]) =
    (some ['h'], some 80, some false, true) := by decide

example : Parse.parse_server_info ("GET http://h:123x/ HTTP/1.1".data.map
    Char.toNat) = (none, none, none, false) := by decide

example : Parse.parse_server_info ("  connect h:80 http/1.0".data.map
    Char.toNat) = (some ['h'], some 80, some true, true) := by decide

example : Parse.parse_server_info ("CONNECT h: 1_0 HTTP/1.1".data.map
    Char.toNat) = (none, none, none, false) := by decide

example : Parse.parse_server_info ("OneToken".data.map Char.toNat) =
    (none, none, none, false) := by decide

example : Parse.parse_server_info ("CONNECT :444 HTTP/1.1".data.map
    Char.toNat) = (some [], some 444, some true, true) := by decide

end ParseSanity

namespace Parse

/-- Unfolding `parse_server_info` once the decoded text is known to be
non-empty and the first-line split is known. -/
theorem parse_cons (bs : List Nat) (p0 p1 : List Char) (t : List (List Char))
    (htxt : textOf bs ≠ [])
    (hsp : Headers.splitSp 2 (firstLineOf bs) = p0 :: p1 :: t) :
    parse_server_info bs =
      (if p0.map Char.toUpper = "CONNECT".data then
        if p1.contains ':' then
          match pyInt (connectPortStr p1) with
          | some v =>
            (some ((connectHost p1).map Char.toLower), some v, some true, true)
          | none => (none, none, none, false)
        else (none, none, none, false)
      else
        match matchUrl p1 with
        | some (host, some d) =>
          match pyInt d with
          | some v => (some (host.map Char.toLower), some v, some false, true)
          | none => (none, none, none, false)
        | some (host, none) =>
          (some (host.map Char.toLower),
            some (if Headers.startsWith ("https://".data) p1 then 443 else 80),
            some false, true)
        | none => (none, none, none, false)) := by
  simp only [parse_server_info]
  rw [if_neg htxt, hsp]

/-- Unfolding `parse_server_info` when the first-line split has a single
part (`len(parts) < 2`). -/
theorem parse_single (bs : List Nat) (p0 : List Char)
    (hsp : Headers.splitSp 2 (firstLineOf bs) = [p0]) :
    parse_server_info bs = (none, none, none, false) := by
  by_cases htxt : textOf bs = []
  · simp only [parse_server_info, if_pos htxt]
  · simp only [parse_server_info]
    rw [if_neg htxt, hsp]

end Parse

/-- C8: the classifier is total and fails closed.  Every input yields
either the invalid quadruple `(None, None, None, False)` or a fully
populated valid quadruple; and each malformed class — empty decoded
text, a first line with fewer than two space-separated parts, a CONNECT
target without a colon, a CONNECT port text rejected by `int`, and a
non-CONNECT target rejected by the URL pattern — yields exactly
`(None, None, None, False)`. -/
theorem Parse.C8_classifier_total (bs : List Nat) :
    (Parse.parse_server_info bs = (none, none, none, false) ∨
      ∃ h p c, Parse.parse_server_info bs = (some h, some p, some c, true)) ∧
    (Parse.textOf bs = [] →
      Parse.parse_server_info bs = (none, none, none, false)) ∧
    (∀ p0, Headers.splitSp 2 (Parse.firstLineOf bs) = [p0] →
      Parse.parse_server_info bs = (none, none, none, false)) ∧
    (∀ p0 p1 t, Headers.splitSp 2 (Parse.firstLineOf bs) = p0 :: p1 :: t →
      p0.map Char.toUpper = "CONNECT".data →
      p1.contains ':' = false →
      Parse.parse_server_info bs = (none, none, none, false)) ∧
    (∀ p0 p1 t, Headers.splitSp 2 (Parse.firstLineOf bs) = p0 :: p1 :: t →
      p0.map Char.toUpper = "CONNECT".data →
      Parse.pyInt (Parse.connectPortStr p1) = none →
      Parse.parse_server_info bs = (none, none, none, false)) ∧
    (∀ p0 p1 t, Headers.splitSp 2 (Parse.firstLineOf bs) = p0 :: p1 :: t →
      p0.map Char.toUpper ≠ "CONNECT".data →
      Parse.matchUrl p1 = none →
      Parse.parse_server_info bs = (none, none, none, false)) := by
  have hempty : Parse.textOf bs = [] →
      Parse.parse_server_info bs = (none, none, none, false) := by
    intro htxt
    simp only [Parse.parse_server_info, if_pos htxt]
  refine ⟨?_, hempty, ?_, ?_, ?_, ?_⟩
  · by_cases htxt : Parse.textOf bs = []
    · exact Or.inl (hempty htxt)
    · rcases hsp : Headers.splitSp 2 (Parse.firstLineOf bs) with
        _ | ⟨p0, _ | ⟨p1, t⟩⟩
      · left
        simp only [Parse.parse_server_info]
        rw [if_neg htxt, hsp]
      · left
        simp only [Parse.parse_server_info]
        rw [if_neg htxt, hsp]
      · rw [Parse.parse_cons bs p0 p1 t htxt hsp]
        by_cases hm : p0.map Char.toUpper = "CONNECT".data
        · rw [if_pos hm]
          by_cases hc : p1.contains ':' = true
          · rw [if_pos hc]
            rcases hpi : Parse.pyInt (Parse.connectPortStr p1) with _ | v
            · exact Or.inl rfl
            · exact Or.inr
                ⟨(Parse.connectHost p1).map Char.toLower, v, true, rfl⟩
          · rw [if_neg hc]
            exact Or.inl rfl
        · rw [if_neg hm]
          rcases hmu : Parse.matchUrl p1 with _ | ⟨host, _ | d⟩
          · exact Or.inl rfl
          · exact Or.inr ⟨host.map Char.toLower,
              if Headers.startsWith ("https://".data) p1 then 443 else 80,
              false, rfl⟩
          · simp only []
            rcases hpi : Parse.pyInt d with _ | v
            · exact Or.inl rfl
            · exact Or.inr ⟨host.map Char.toLower, v, false, rfl⟩
  · intro p0 hsp
    exact Parse.parse_single bs p0 hsp
  · intro p0 p1 t hsp hm hc
    by_cases htxt : Parse.textOf bs = []
    · exact hempty htxt
    · rw [Parse.parse_cons bs p0 p1 t htxt hsp, if_pos hm,
        if_neg (by intro hcc; rw [hc] at hcc; cases hcc)]
  · intro p0 p1 t hsp hm hpi
    by_cases htxt : Parse.textOf bs = []
    · exact hempty htxt
    · rw [Parse.parse_cons bs p0 p1 t htxt hsp, if_pos hm]
      by_cases hc : p1.contains ':' = true
      · rw [if_pos hc, hpi]
      · rw [if_neg hc]
  · intro p0 p1 t hsp hm hmu
    by_cases htxt : Parse.textOf bs = []
    · exact hempty htxt
    · rw [Parse.parse_cons bs p0 p1 t htxt hsp, if_neg hm, hmu]

/-- Witness for C8: the malformed classes at concrete inputs — the
empty input, a one-token first line, and a CONNECT target without a
colon all classify invalid. -/
theorem Parse.C8_classifier_total_witness :
    Parse.parse_server_info [] = (none, none, none, false) ∧
    Parse.parse_server_info ("OneToken".data.map Char.toNat) =
      (none, none, none, false) ∧
    Parse.parse_server_info ("CONNECT example.com HTTP/1.1".data.map
      Char.toNat) = (none, none, none, false) :=
  ⟨(Parse.C8_classifier_total []).2.1 (by decide),
    (Parse.C8_classifier_total ("OneToken".data.map Char.toNat)).2.2.1
      ("OneToken".data) (by decide),
    (Parse.C8_classifier_total ("CONNECT example.com HTTP/1.1".data.map
        Char.toNat)).2.2.2.1
      ("CONNECT".data) ("example.com".data) (["HTTP/1.1".data])
      (by decide) (by decide) (by decide)⟩

/-- C5 counterexample: the CONNECT target `h:0` — whose port part parses
to 0, outside [1, 65535] — is classified *valid* with port 0: the code
applies no range check to the CONNECT port. -/
theorem Parse.C5_counterexample :
    Parse.parse_server_info ("CONNECT h:0 HTTP/1.1\r\n\r\n".data.map
      Char.toNat) = (some ['h'], some 0, some true, true) ∧
    ¬ (1 ≤ (0 : Int) ∧ (0 : Int) ≤ 65535) := by
  constructor
  · decide
  · decide

/-- C5 (amended): for a CONNECT request the classifier returns
valid=true exactly when the target contains a colon and the part after
the first colon parses under `int`; the parsed port is returned as-is,
with no range check — any integer, including 0, negative values and
values above 65535, is accepted. -/
theorem Parse.C5_connect_no_port_range_check (bs : List Nat)
    (p0 p1 : List Char) (t : List (List Char))
    (htxt : Parse.textOf bs ≠ [])
    (hsp : Headers.splitSp 2 (Parse.firstLineOf bs) = p0 :: p1 :: t)
    (hconn : p0.map Char.toUpper = "CONNECT".data) :
    ((Parse.parse_server_info bs).2.2.2 = true ↔
      p1.contains ':' = true ∧
        (Parse.pyInt (Parse.connectPortStr p1)).isSome = true) ∧
    (∀ v : Int, p1.contains ':' = true →
      Parse.pyInt (Parse.connectPortStr p1) = some v →
      Parse.parse_server_info bs =
        (some ((Parse.connectHost p1).map Char.toLower), some v, some true,
          true)) := by
  rw [Parse.parse_cons bs p0 p1 t htxt hsp, if_pos hconn]
  constructor
  · by_cases hc : p1.contains ':' = true
    · rw [if_pos hc]
      rcases hpi : Parse.pyInt (Parse.connectPortStr p1) with _ | v
      · exact ⟨fun h => Bool.noConfusion h, fun hx => Bool.noConfusion hx.2⟩
      · exact ⟨fun _ => ⟨hc, rfl⟩, fun _ => rfl⟩
    · rw [if_neg hc]
      constructor
      · intro h
        cases h
      · rintro ⟨h, -⟩
        exact absurd h hc
  · intro v hc hpi
    rw [if_pos hc]
    rw [hpi]

/-- Witness for C5: applying the amended theorem to the concrete request
`CONNECT h:0 HTTP/1.1` shows the out-of-range port 0 is accepted. -/
theorem Parse.C5_witness :
    Parse.parse_server_info ("CONNECT h:0 HTTP/1.1".data.map Char.toNat) =
      (some ['h'], some 0, some true, true) :=
  (Parse.C5_connect_no_port_range_check
      ("CONNECT h:0 HTTP/1.1".data.map Char.toNat)
      ("CONNECT".data) ("h:0".data) (["HTTP/1.1".data])
      (by decide) (by decide) (by decide)).2 0 (by decide) (by decide)

/-! ## The worker (`proxy.proxy`, `proxy.send_error`, `handlers`)

The worker's interaction with the network is modelled as the list of
client-observable actions it performs, in program order.  The
environment is abstracted into oracles: the bytes `recv` returns,
whether `gethostbyname` succeeds, and the outcome of each handler's
dial of the origin (`none` models the exception path of the `try`
block: connection refused or timeout).  Server-side traffic, `print`
messages and the log files are not client-observable and are not
modelled; `log_request`/`update_domain_stats` at the completion point
are modelled as an emitted completion event and a stats record. -/

namespace Trace

/-- `proxy.BLOCKLIST`. -/
def BLOCKLIST : List (List Char) :=
  ["*.youtube.com".data, "*.ytimg.com".data, "*.googlevideo.com".data]

/-- `fnmatch.fnmatch` for the pattern alphabet `BLOCKLIST` draws on:
`*`, `?` and literal characters (none of its patterns contains a
bracket class, and `os.path.normcase` is the identity on POSIX).
Structurally recursive on a fuel that bounds pattern length plus
string length, both of which every call decreases. -/
def globF : Nat → List Char → List Char → Bool
  | 0, _, _ => false
  | _ + 1, [], s => s.isEmpty
  | fuel + 1, '*' :: ps, s =>
    globF fuel ps s ||
      (match s with
      | [] => false
      | _ :: t => globF fuel ('*' :: ps) t)
  | fuel + 1, '?' :: ps, s =>
    (match s with
    | [] => false
    | _ :: t => globF fuel ps t)
  | fuel + 1, p :: ps, s =>
    (match s with
    | [] => false
    | c :: t => p == c && globF fuel ps t)

/-- `proxy.is_blocked`: does any blocklist pattern match the host. -/
def is_blocked (hostname : List Char) : Bool :=
  BLOCKLIST.any (fun pat =>
    globF (pat.length + hostname.length + 1) pat hostname)

/-- The event vocabulary of the specification.  The code produces only
completion events (`log_request` + `update_domain_stats`); the spec
additionally names rate-limit and blocked events. -/
inductive Event where
  | requestCompleted (host : List Char) (bytesSent bytesReceived : Nat)
  | rateLimited (ip : String) (currentCount : Nat)
  | requestBlocked (host : List Char)
deriving DecidableEq

/-- The client-observable actions of one worker. -/
inductive Action where
  | recvClient
  | sendClient (data : List Nat)
  | closeClient
  | emit (e : Event)
  | record (host : List Char) (bytesSent bytesReceived : Nat)
deriving DecidableEq

/-- The bytes of `f"HTTP/1.1 {code} {message}\r\n\r\n".encode()`. -/
def statusLine (code : Nat) (message : List Char) : List Nat :=
  ("HTTP/1.1 ".data ++ (Nat.repr code).data ++ ' ' :: message ++
    "\r\n\r\n".data).map Char.toNat

/-- `proxy.send_error`: send the status line, close the client socket
(the inner `except: pass` only swallows a send failure). -/
def send_error (code : Nat) (message : List Char) : List Action :=
  [Action.sendClient (statusLine code message), Action.closeClient]

/-- `handlers.handle_https` with the network abstracted by `dial`:
`none` means `connect` raised (refused or the 2-second timeout) — the
`except` clause prints and closes, nothing more; `some (toOrigin,
toClient)` a completed tunnel that moved `toOrigin` bytes
client→origin (summed into `t1_bytes`, reported as bytes_received) and
`toClient` bytes origin→client (summed into `t2_bytes`, reported as
bytes_sent). -/
def handle_https (hostname : List Char) (dial : Option (Nat × Nat)) :
    List Action :=
  match dial with
  | none => [Action.closeClient]
  | some (toOrigin, toClient) =>
    [Action.sendClient
        (("HTTP/1.1 200 Connection Established\r\n\r\n".data).map Char.toNat),
      Action.emit (Event.requestCompleted hostname toClient toOrigin),
      Action.record hostname toClient toOrigin,
      Action.closeClient]

/-- `handlers.handle_http` with the network abstracted by `dial`:
`none` means the connect/send raised — the `except` clause prints and
closes; `some chunks` the response chunks streamed from the origin to
the client.  bytes_sent is the total streamed; bytes_received is
`len(client_data.encode('utf-8'))` for the decoded client text passed
in.  On success the client socket is left open (no `close` on this
path in the code). -/
def handle_http (hostname : List Char) (client_data : List Nat)
    (dial : Option (List (List Nat))) : List Action :=
  match dial with
  | none => [Action.closeClient]
  | some chunks =>
    chunks.map Action.sendClient ++
      [Action.emit (Event.requestCompleted hostname
          (chunks.map List.length).sum
          (Utf8.encodeUtf8 client_data).length),
        Action.record hostname (chunks.map List.length).sum
          (Utf8.encodeUtf8 client_data).length]

/-- `proxy.proxy`: rate-limit check (before any read), `recv`, the
empty/parse/blocked/resolve error ladder, then dispatch.  `client_data
= raw.decode('utf-8', 'backslashreplace')` is the decoded text handed
to the HTTP handler.  The final catch-all `except` of the function can
only fire where the oracles already model the failure. -/
def proxy (counter : String → List ℚ) (ip : String) (now : ℚ)
    (recvd : List Nat) (resolveOk : Bool) (dialHttps : Option (Nat × Nat))
    (dialHttp : Option (List (List Nat))) : List Action :=
  if (RateLimit.admitReq counter ip now).1 = false then
    send_error 429 ("Too Many Requests".data)
  else
    Action.recvClient ::
      (if recvd = [] then send_error 502 ("Bad Gateway".data)
      else
        match Parse.parse_server_info recvd with
        | (some hostname, _, is_connectOpt, true) =>
          if is_blocked hostname then send_error 403 ("Forbidden".data)
          else if resolveOk = false then send_error 502 ("Bad Gateway".data)
          else if is_connectOpt = some true then
            handle_https hostname dialHttps
          else
            handle_http hostname (Utf8.decodeUtf8 Utf8.escB recvd) dialHttp
        | _ => send_error 400 ("Bad Request".data))

end Trace

section TraceSanity

example : Trace.is_blocked ("www.youtube.com".data) = true := by decide

example : Trace.is_blocked ("youtube.com".data) = false := by decide

example : Trace.is_blocked ("h".data) = false := by decide

example : Trace.statusLine 429 ("Too Many Requests".data) =
    ("HTTP/1.1 429 Too Many Requests\r\n\r\n".data).map Char.toNat := by
  decide

end TraceSanity

/-- C3 counterexample: on a failed CONNECT dial the handler's trace is
exactly one close — in particular the 502 status line the spec promises
is not sent. -/
theorem Trace.C3_counterexample :
    Trace.handle_https ("example.com".data) none =
      [Trace.Action.closeClient] ∧
    Trace.Action.sendClient (Trace.statusLine 502 ("Bad Gateway".data)) ∉
      Trace.handle_https ("example.com".data) none := by
  decide

/-- C3 (amended): when the CONNECT tunneler's dial of the origin fails
(connection refused or the 2-second connect timeout), the handler
closes the client socket and nothing else: no 502 — indeed no bytes at
all — is sent to the client, no completion event is emitted, and no
stats are recorded.  (The `except` clause only prints and closes; the
spec's promised 502 does not exist on this path.) -/
theorem Trace.C3_https_dial_failure_closes_silently (host : List Char) :
    Trace.handle_https host none = [Trace.Action.closeClient] ∧
    (∀ d, Trace.Action.sendClient d ∉ Trace.handle_https host none) ∧
    (∀ e, Trace.Action.emit e ∉ Trace.handle_https host none) ∧
    (∀ h a b, Trace.Action.record h a b ∉ Trace.handle_https host none) := by
  refine ⟨rfl, ?_, ?_, ?_⟩ <;> intros <;> simp [Trace.handle_https]

/-- C4 (amended): when the rate limiter denies a connection the worker
sends exactly `HTTP/1.1 429 Too Many Requests\r\n\r\n` and closes the
socket, and it never reads from the client; but no `RateLimited` (or
any other) event is emitted — the code only prints to stdout, and no
rate-limit event exists anywhere in it. -/
theorem Trace.C4_rate_limit_denial (counter : String → List ℚ)
    (ip : String) (now : ℚ) (recvd : List Nat) (resolveOk : Bool)
    (dialHttps : Option (Nat × Nat)) (dialHttp : Option (List (List Nat)))
    (hden : (RateLimit.admitReq counter ip now).1 = false) :
    Trace.proxy counter ip now recvd resolveOk dialHttps dialHttp =
      [Trace.Action.sendClient
          (("HTTP/1.1 429 Too Many Requests\r\n\r\n".data).map Char.toNat),
        Trace.Action.closeClient] ∧
    Trace.Action.recvClient ∉
      Trace.proxy counter ip now recvd resolveOk dialHttps dialHttp ∧
    ∀ e, Trace.Action.emit e ∉
      Trace.proxy counter ip now recvd resolveOk dialHttps dialHttp := by
  have h1 : Trace.proxy counter ip now recvd resolveOk dialHttps dialHttp =
      Trace.send_error 429 ("Too Many Requests".data) := by
    simp only [Trace.proxy, if_pos hden]
  rw [h1]
  refine ⟨by decide, by decide, ?_⟩
  intro e he
  simp [Trace.send_error] at he

/-- C4 counterexample: in a concrete denied state the whole trace is
the 429 response and the close; the `RateLimited{current_count=100}`
event the spec promises is not in it. -/
theorem Trace.C4_counterexample :
    Trace.proxy RateLimit.wCounter "a" 1 [] true none none =
      [Trace.Action.sendClient
          (("HTTP/1.1 429 Too Many Requests\r\n\r\n".data).map Char.toNat),
        Trace.Action.closeClient] ∧
    Trace.Action.emit (Trace.Event.rateLimited "a" 100) ∉
      Trace.proxy RateLimit.wCounter "a" 1 [] true none none := by
  have h1 : Trace.proxy RateLimit.wCounter "a" 1 [] true none none =
      Trace.send_error 429 ("Too Many Requests".data) := by
    simp only [Trace.proxy, if_pos RateLimit.wCounter_denied]
  rw [h1]
  exact ⟨by decide, by decide⟩

/-- Witness for C4: the amended theorem applied to the concrete denied
state (IP `a` with a full ledger). -/
theorem Trace.C4_witness :
    Trace.proxy RateLimit.wCounter "a" 1 ([65]) true none none =
      [Trace.Action.sendClient
          (("HTTP/1.1 429 Too Many Requests\r\n\r\n".data).map Char.toNat),
        Trace.Action.closeClient] :=
  (Trace.C4_rate_limit_denial RateLimit.wCounter "a" 1 [65] true none none
    RateLimit.wCounter_denied).1

/-- C7 (amended): the bytes_received value the HTTP forwarder reports in
its completion event and stats record is
`len(client_data.encode('utf-8'))`, where `client_data` is the
`backslashreplace` decode of the raw request bytes — the quantity the
proxy actually passes down — and not `len(raw)`.  The two agree
whenever the raw bytes are valid UTF-8 (each invalid byte instead
expands to the four characters `\xhh`). -/
theorem Trace.C7_bytes_received (raw : List Nat) (host : List Char)
    (chunks : List (List Nat)) :
    (Trace.Action.emit (Trace.Event.requestCompleted host
        ((chunks.map List.length).sum)
        ((Utf8.encodeUtf8 (Utf8.decodeUtf8 Utf8.escB raw)).length)) ∈
      Trace.handle_http host (Utf8.decodeUtf8 Utf8.escB raw)
        (some chunks)) ∧
    (Trace.Action.record host ((chunks.map List.length).sum)
        ((Utf8.encodeUtf8 (Utf8.decodeUtf8 Utf8.escB raw)).length) ∈
      Trace.handle_http host (Utf8.decodeUtf8 Utf8.escB raw)
        (some chunks)) ∧
    (∀ cps, raw = Utf8.encodeUtf8 cps → (∀ n ∈ cps, Utf8.validScalar n) →
      (Utf8.encodeUtf8 (Utf8.decodeUtf8 Utf8.escB raw)).length =
        raw.length) := by
  refine ⟨?_, ?_, ?_⟩
  · simp [Trace.handle_http]
  · simp [Trace.handle_http]
  · intro cps hcraw hval
    rw [hcraw, Utf8.decode_encodeUtf8 Utf8.escB cps hval]

/-- C7 counterexample: for the raw request `GET http://h/ HTTP/1.1`
followed by the invalid byte `0xFF` (23 bytes), the proxy's completion
event and stats record report bytes_received = 26: the invalid byte
became the four characters `\xff`, so the reported value is not the
length of the client's original request bytes. -/
theorem Trace.C7_counterexample :
    Trace.proxy (fun _ => []) "a" 0
        ("GET http://h/ HTTP/1.1".data.map Char.toNat ++ [0xFF]) true none
        (some []) =
      [Trace.Action.recvClient,
        Trace.Action.emit (Trace.Event.requestCompleted ['h'] 0 26),
        Trace.Action.record ['h'] 0 26] ∧
    ("GET http://h/ HTTP/1.1".data.map Char.toNat ++ [0xFF]).length = 23 := by
  constructor
  · decide
  · decide

instance (n : Nat) : Decidable (Utf8.validScalar n) := by
  unfold Utf8.validScalar
  infer_instance

/-- Witness for C7: on an all-ASCII (hence valid UTF-8) request the
reported bytes_received does equal the raw length. -/
theorem Trace.C7_witness :
    (Utf8.encodeUtf8 (Utf8.decodeUtf8 Utf8.escB
        ("GET http://h/ HTTP/1.1".data.map Char.toNat))).length =
      ("GET http://h/ HTTP/1.1".data.map Char.toNat).length :=
  (Trace.C7_bytes_received ("GET http://h/ HTTP/1.1".data.map Char.toNat)
      (['h']) ([])).2.2
    ("GET http://h/ HTTP/1.1".data.map Char.toNat) (by decide) (by decide)
